import Mathlib

set_option maxHeartbeats 1000000

/-
Verification of the header/segment layer of the FlexW/jpeg-codec decoder.

The development shallowly embeds the Rust sources (src/jpeg/huffman_tree.rs,
src/jpeg/marker.rs, src/jpeg/util.rs, src/jpeg/error.rs, src/jpeg/decoder.rs):
pure functions become Lean functions, the mutable node arena and the reader
become explicitly threaded state, `u8`/`u16` values become `Nat` with explicit
truncation where the source casts, and every Rust panic (`unwrap` of `None`,
`assert!` failure, out-of-bounds index, debug-profile arithmetic overflow) is
modelled as an abnormal `none`/`panic` result.
-/

namespace Jpeg

/-- Arena node of the Huffman decode tree (huffman_tree.rs, `HuffmanNode`):
a `u8` symbol `value`, optional arena indices for `parent`, `left_child` and
`right_child`, and the `valid_code` leaf flag. -/
structure HuffmanNode where
  value : Nat
  parent : Option Nat
  left_child : Option Nat
  right_child : Option Nat
  valid_code : Bool
deriving Repr, DecidableEq

/-- Source constructor `HuffmanNode::new`. -/
def HuffmanNode.new : HuffmanNode := ⟨0, none, none, none, false⟩

/-- Source constructor `HuffmanNode::new_with_parent`. -/
def HuffmanNode.new_with_parent (p : Nat) : HuffmanNode := ⟨0, some p, none, none, false⟩

/-- Arena of the Huffman decode tree (`HuffmanTree { nodes: Vec<HuffmanNode> }`). -/
structure HuffmanTree where
  nodes : List HuffmanNode
deriving Repr, DecidableEq

/-- Raw Huffman table (`pub type HuffmanTable = [Vec<u8>; 16]`): sixteen slots,
slot `i` holding the ordered symbols of code length `i + 1`.  The fixed-size
Rust array becomes a list; theorems quantifying over tables carry the
hypothesis that the length is 16, which the Rust array type enforces. -/
abbrev HuffmanTable := List (List Nat)

namespace HuffmanTree

/-- Upward walk of `get_right_node_on_same_level` (huffman_tree.rs lines
113-128): climb from `current` to its parent while `current` is its parent's
right child, counting the levels in `depth`.  `some (some (c, d))` models the
`break` with the loop state, `some none` models the `return None` when a node
without a parent is reached, and `none` models a panic (out-of-bounds index or
`right_child.unwrap()` on a childless parent) or divergence.  Each step moves
to the parent, and in every arena the builder creates parent indices strictly
decrease, so the walk takes at most `current + 1` steps; the caller passes
fuel `nodes.length + 1`, which is then never exhausted. -/
def upWalk (nodes : List HuffmanNode) : Nat → Nat → Nat → Option (Option (Nat × Nat))
  | 0, _, _ => none
  | fuel + 1, current, depth =>
    match nodes.get? current with
    | none => none
    | some cn =>
      match cn.parent with
      | none => some none
      | some p =>
        match nodes.get? p with
        | none => none
        | some pn =>
          match pn.right_child with
          | none => none
          | some rc =>
            if rc ≠ current then some (some (current, depth))
            else upWalk nodes fuel p (depth + 1)

/-- Downward walk of `get_right_node_on_same_level` (lines 134-137): descend
`depth` levels via left children; `none` models the `left_child.unwrap()`
panic. -/
def downWalk (nodes : List HuffmanNode) : Nat → Nat → Option Nat
  | current, 0 => some current
  | current, d + 1 =>
    match nodes.get? current with
    | none => none
    | some n =>
      match n.left_child with
      | none => none
      | some lc => downWalk nodes lc d

/-- Embedding of `HuffmanTree::get_right_node_on_same_level` (lines 92-142).
The result is `some r` for a normal return of `r` (itself an optional index)
and `none` for a panic.  After the upward walk breaks at `(c, d)`, the source
re-reads `self.nodes[self.nodes[current].parent.unwrap()].right_child.unwrap()`
and descends `d` levels via left children. -/
def get_right_node_on_same_level (nodes : List HuffmanNode) (node_index : Option Nat) :
    Option (Option Nat) :=
  match node_index with
  | none => some none
  | some ni =>
    match nodes.get? ni with
    | none => none
    | some node =>
      match node.parent with
      | none => some none
      | some parent =>
        match nodes.get? parent with
        | none => none
        | some parent_node =>
          if parent_node.left_child.elim false (fun lc => lc = ni) then
            some parent_node.right_child
          else
            match upWalk nodes (nodes.length + 1) ni 0 with
            | none => none
            | some none => some none
            | some (some (c, d)) =>
              match nodes.get? c with
              | none => none
              | some cn =>
                match cn.parent with
                | none => none
                | some cp =>
                  match nodes.get? cp with
                  | none => none
                  | some cpn =>
                    match cpn.right_child with
                    | none => none
                    | some rc =>
                      match downWalk nodes rc d with
                      | none => none
                      | some r => some (some r)

/-- Embedding of `HuffmanTree::add_empty_childs` (lines 79-86): push two fresh
nodes whose parent is `node_index`, then point `node_index` at them.  The two
field assignments of the source are one record update here.  `none` models the
panic of indexing `self.nodes[node_index]` out of bounds. -/
def add_empty_childs (nodes : List HuffmanNode) (node_index : Nat) :
    Option (List HuffmanNode) :=
  let left_node_index := nodes.length
  let nodes1 := nodes ++ [HuffmanNode.new_with_parent node_index]
  let right_node_index := nodes1.length
  let nodes2 := nodes1 ++ [HuffmanNode.new_with_parent node_index]
  match nodes2.get? node_index with
  | none => none
  | some n =>
    some (nodes2.set node_index
      { n with left_child := some left_node_index, right_child := some right_node_index })

/-- Embedding of `HuffmanTree::symbol_count_of_length` (lines 88-90): the
source computes `huffman_table[(length - 1) as usize].len() as u8`; the
`as u8` cast truncates the slot length modulo 256. -/
def symbol_count_of_length (huffman_table : HuffmanTable) (length : Nat) : Nat :=
  (huffman_table.getD (length - 1) []).length % 256

/-- Inner `while !current.is_none()` loops of `construct_tree` (lines 53-57
and 71-74): give the node `current` and every node to its right on the same
level two empty children.  The loop visits each node of one level once and a
level never holds more nodes than the whole arena, so the fuel passed at loop
entry (`nodes.length + 1`) is never exhausted for arenas the builder creates;
exhaustion is mapped to `none` like a panic. -/
def growLevelFrom : Nat → List HuffmanNode → Option Nat → Option (List HuffmanNode)
  | _, nodes, none => some nodes
  | 0, _, some _ => none
  | fuel + 1, nodes, some c =>
    match add_empty_childs nodes c with
    | none => none
    | some nodes1 =>
      match get_right_node_on_same_level nodes1 (some c) with
      | none => none
      | some cur => growLevelFrom fuel nodes1 cur

/-- The `for symbol in &huffman_table[i]` loop of `construct_tree` (lines
60-65): mark the leftmost open node as a valid leaf carrying the symbol (the
two field assignments of the source are one record update), then step right.
`none` models the `leftmost_node.unwrap()` panic when the symbols outnumber
the open nodes of the level. -/
def assignSymbols : List HuffmanNode → Option Nat → List Nat →
    Option (List HuffmanNode × Option Nat)
  | nodes, lm, [] => some (nodes, lm)
  | nodes, lm, s :: rest =>
    match lm with
    | none => none
    | some l =>
      match nodes.get? l with
      | none => none
      | some n =>
        let nodes1 := nodes.set l { n with value := s, valid_code := true }
        match get_right_node_on_same_level nodes1 (some l) with
        | none => none
        | some lm1 => assignSymbols nodes1 lm1 rest

/-- One iteration of the `for i in 0..16` loop of `construct_tree` (lines
51-76), processing the slot of code length `i + 1`.  The branch condition is
`symbol_count_of_length(huffman_table, i + 1) == 0`, i.e. the slot length is
a multiple of 256 (the `as u8` truncation).  In the non-empty branch, after
the symbols are placed the source unconditionally unwraps `leftmost_node`
(line 67) before growing the remaining open nodes: if the symbols consumed
the whole level, this is a panic. -/
def constructLevel (nodes : List HuffmanNode) (leftmost_node : Option Nat)
    (slot : List Nat) : Option (List HuffmanNode × Option Nat) :=
  if slot.length % 256 = 0 then
    match growLevelFrom (nodes.length + 1) nodes leftmost_node with
    | none => none
    | some nodes1 =>
      match leftmost_node with
      | none => none
      | some lm =>
        match nodes1.get? lm with
        | none => none
        | some n => some (nodes1, n.left_child)
  else
    match assignSymbols nodes leftmost_node slot with
    | none => none
    | some (nodes1, lm1) =>
      match lm1 with
      | none => none
      | some lm =>
        match add_empty_childs nodes1 lm with
        | none => none
        | some nodes2 =>
          match get_right_node_on_same_level nodes2 (some lm) with
          | none => none
          | some cur =>
            match nodes2.get? lm with
            | none => none
            | some lmn =>
              match growLevelFrom (nodes2.length + 1) nodes2 cur with
              | none => none
              | some nodes3 => some (nodes3, lmn.left_child)

/-- The `for i in 0..16` loop of `construct_tree`, iterating over the slots in
order with the `(nodes, leftmost_node)` state. -/
def constructLoop : List (List Nat) → List HuffmanNode → Option Nat →
    Option (List HuffmanNode × Option Nat)
  | [], nodes, lm => some (nodes, lm)
  | slot :: rest, nodes, lm =>
    match constructLevel nodes lm slot with
    | none => none
    | some (nodes1, lm1) => constructLoop rest nodes1 lm1

/-- Embedding of `HuffmanTree::new` (lines 16-21) together with the framing of
`construct_tree` (lines 46-50): a root node, two empty children for it, the
leftmost pointer at the root's left child, then the 16 level iterations.
`none` models a panic anywhere inside the builder. -/
def new (huffman_table : HuffmanTable) : Option HuffmanTree :=
  let nodes0 : List HuffmanNode := [HuffmanNode.new]
  match add_empty_childs nodes0 0 with
  | none => none
  | some nodes1 =>
    match nodes1.get? 0 with
    | none => none
    | some root =>
      match constructLoop huffman_table nodes1 root.left_child with
      | none => none
      | some (nodes2, _) => some ⟨nodes2⟩

/-- In-order code listing of `do_print_codes` (lines 27-44): instead of
printing each `Code: c Value: v` line, collect the `(code, value)` pairs in
emission order; a code character "0" is `false` and "1" is `true`.  The
leading guard is the source's `node_index >= self.nodes.len()` bounds check.
The fuel bounds the recursion depth by the arena size, far above the depth-17
trees the builder creates. -/
def do_print_codes (nodes : List HuffmanNode) : Nat → Nat → List Bool →
    List (List Bool × Nat)
  | 0, _, _ => []
  | fuel + 1, node_index, code =>
    if node_index ≥ nodes.length then []
    else
      match nodes.get? node_index with
      | none => []
      | some node =>
        (match node.left_child with
         | none => []
         | some lc => do_print_codes nodes fuel lc (code ++ [false])) ++
        (if node.valid_code then [(code, node.value)] else []) ++
        (match node.right_child with
         | none => []
         | some rc => do_print_codes nodes fuel rc (code ++ [true]))

/-- Embedding of `HuffmanTree::print_codes` (lines 23-25): the listing starts
at the root with the empty code. -/
def print_codes (t : HuffmanTree) : List (List Bool × Nat) :=
  do_print_codes t.nodes (t.nodes.length + 1) 0 []

end HuffmanTree

/-- Error enumeration of src/jpeg/error.rs.  The `Io` variant of the source
carries an `io::Error` payload; the only I/O failure this decoder ever
produces is an unexpected end of the byte source, so the payload is dropped. -/
inductive Error where
  | Unsupported (msg : String)
  | Io
  | Parse (msg : String)
deriving Repr, DecidableEq

/-- Abnormal outcomes of running a piece of the decoder: a returned
`Err(Error)` of the source, or a Rust panic (`unwrap` on `None`, `assert!`
failure, out-of-bounds index, debug-profile arithmetic overflow). -/
inductive Failure where
  | err (e : Error)
  | panic
deriving Repr, DecidableEq

instance {ε α : Type} [DecidableEq ε] [DecidableEq α] : DecidableEq (Except ε α) :=
  fun x y =>
    match x, y with
    | .ok a, .ok b => if h : a = b then .isTrue (by rw [h]) else .isFalse (by simp [h])
    | .error a, .error b => if h : a = b then .isTrue (by rw [h]) else .isFalse (by simp [h])
    | .ok _, .error _ => .isFalse (by simp)
    | .error _, .ok _ => .isFalse (by simp)

/-- Byte source: the decoder reads a `Read` stream front to back, so the
stream is the list of bytes not yet consumed.  A `u8` read truncates a list
entry to its low 8 bits, which the Rust `u8` type guarantees. -/
def read_u8 : List Nat → Except Failure (Nat × List Nat)
  | [] => .error (.err .Io)
  | b :: rest => .ok (b % 256, rest)

/-- Embedding of `read_u16_be` (util.rs): two bytes, big endian,
`(msb << 8) + lsb`. -/
def read_u16_be : List Nat → Except Failure (Nat × List Nat)
  | b0 :: b1 :: rest => .ok ((b0 % 256) * 256 + b1 % 256, rest)
  | _ => .error (.err .Io)

/-- Embedding of `Read::read_exact` into a buffer of length `n`: either the
source has `n` bytes and they are consumed, or the read fails with an I/O
error (the decoder never touches the source again after an error, so the
partially consumed bytes of a failed Rust `read_exact` are irrelevant). -/
def read_exact (n : Nat) (input : List Nat) : Except Failure (List Nat × List Nat) :=
  if input.length < n then .error (.err .Io)
  else .ok ((input.take n).map (· % 256), input.drop n)

/-- Embedding of `skip_bytes` (decoder.rs lines 392-401): drop `size` bytes,
failing with an I/O error when fewer are available (`copied < size`). -/
def skip_bytes (size : Nat) (input : List Nat) : Except Failure (List Nat) :=
  if input.length < size then .error (.err .Io) else .ok (input.drop size)

/-- Checked `u16` subtraction: the source computes `size - 2` on `u16` (and
`size as usize - 2` on `usize`), which panics on underflow in the debug
profile the asserts indicate. -/
def subU16 (a b : Nat) : Except Failure Nat :=
  if a < b then .error .panic else .ok (a - b)

/-- Checked `u16` addition for the `bytes_read` accumulators of the table
parsers, which are `u16` in the source and panic on overflow in the debug
profile. -/
def addU16 (a b : Nat) : Except Failure Nat :=
  if a + b ≤ 65535 then .ok (a + b) else .error .panic

/-- Marker tokens of src/jpeg/marker.rs. -/
inductive Marker where
  | StartOfImage
  | ApplicationSegment (n : Nat) (size : Nat)
  | Comment (size : Nat)
  | DefineQuantizationTable (size : Nat)
  | StartOfFrame (n : Nat) (size : Nat)
  | DefineHuffmanTable (size : Nat)
  | StartOfScan (size : Nat)
  | EndOfImage
deriving Repr, DecidableEq

namespace Marker

/-- The `match byte` table of `Marker::from_reader` (marker.rs lines 41-60):
recognized codes build a marker (length-carrying ones read their big-endian
`u16` length immediately), anything else is the `Unsupported` error. -/
def classifyMarker (b : Nat) (input : List Nat) : Except Failure (Marker × List Nat) :=
  match b with
  | 0xd8 => .ok (.StartOfImage, input)
  | 0xe0 => do let (s, r) ← read_u16_be input; return (.ApplicationSegment 0 s, r)
  | 0xe1 => do let (s, r) ← read_u16_be input; return (.ApplicationSegment 1 s, r)
  | 0xe2 => do let (s, r) ← read_u16_be input; return (.ApplicationSegment 2 s, r)
  | 0xe3 => do let (s, r) ← read_u16_be input; return (.ApplicationSegment 3 s, r)
  | 0xe4 => do let (s, r) ← read_u16_be input; return (.ApplicationSegment 4 s, r)
  | 0xe5 => do let (s, r) ← read_u16_be input; return (.ApplicationSegment 5 s, r)
  | 0xe6 => do let (s, r) ← read_u16_be input; return (.ApplicationSegment 6 s, r)
  | 0xe7 => do let (s, r) ← read_u16_be input; return (.ApplicationSegment 7 s, r)
  | 0xe8 => do let (s, r) ← read_u16_be input; return (.ApplicationSegment 8 s, r)
  | 0xe9 => do let (s, r) ← read_u16_be input; return (.ApplicationSegment 9 s, r)
  | 0xfe => do let (s, r) ← read_u16_be input; return (.Comment s, r)
  | 0xdb => do let (s, r) ← read_u16_be input; return (.DefineQuantizationTable s, r)
  | 0xc0 => do let (s, r) ← read_u16_be input; return (.StartOfFrame 0 s, r)
  | 0xc4 => do let (s, r) ← read_u16_be input; return (.DefineHuffmanTable s, r)
  | 0xda => do let (s, r) ← read_u16_be input; return (.StartOfScan s, r)
  | 0xd9 => .ok (.EndOfImage, input)
  | _ => .error (.err (.Unsupported "Unsupported marker"))

/-- Inner scan `while read_u8(reader)? != 0xff {}` of `from_reader` (line 24):
consume bytes up to and including the first 0xff. -/
def skipToFF : List Nat → Except Failure (List Nat)
  | [] => .error (.err .Io)
  | b :: rest => if b % 256 = 0xff then .ok rest else skipToFF rest

/-- Fill-byte scan of `from_reader` (lines 31-37): read a byte and keep
reading while it is 0xff; return the first non-0xff byte. -/
def skipFills : List Nat → Except Failure (Nat × List Nat)
  | [] => .error (.err .Io)
  | b :: rest => if b % 256 = 0xff then skipFills rest else .ok (b % 256, rest)

/-- Outer `loop` of `Marker::from_reader` (marker.rs lines 18-63) with fuel:
each pass consumes at least the 0xff found by the inner scan plus the byte
after the fills, so the unread stream shrinks by at least two bytes per pass
and the fuel `input.length + 1` passed by `from_reader` is never exhausted
(`fromReaderAux_fuel` below makes the fuel irrelevant above that bound).  A
stuffed-literal byte (`0x00` after the fills) resumes the outer scan; the
`byte != 0xff` half of the source's guard is kept even though the fill scan
makes it vacuous. -/
def fromReaderAux : Nat → List Nat → Except Failure (Marker × List Nat)
  | 0, _ => .error .panic
  | fuel + 1, input =>
    match skipToFF input with
    | .error e => .error e
    | .ok r1 =>
      match skipFills r1 with
      | .error e => .error e
      | .ok (b, r2) =>
        if b ≠ 0x00 ∧ b ≠ 0xff then classifyMarker b r2
        else fromReaderAux fuel r2

/-- Embedding of `Marker::from_reader`. -/
def from_reader (input : List Nat) : Except Failure (Marker × List Nat) :=
  fromReaderAux (input.length + 1) input

end Marker

/-- Encoding-process enumeration of decoder.rs (lines 32-41). -/
inductive EncodingProcess where
  | Unknown
  | BaselineDct
  | ExtendedSequentialDctHc
  | ProgressiveDctHc
  | LosslessHc
  | ExtendedSequentialDctAc
  | ProgressiveDctAc
  | LosslessAc
deriving Repr, DecidableEq

/-- The `match n` on the frame marker sub-code at decoder.rs lines 299-332.
Note that the source maps sub-code 9 to `ExtendedSequentialDctHc` even though
the accompanying println announces "Extended sequential DCT, arithmetic
coding"; the `ExtendedSequentialDctAc` variant is never constructed. -/
def frameEncodingProcess (n : Nat) : EncodingProcess :=
  match n with
  | 0 => .BaselineDct
  | 1 => .ExtendedSequentialDctHc
  | 2 => .ProgressiveDctHc
  | 3 => .LosslessHc
  | 9 => .ExtendedSequentialDctHc
  | 10 => .ProgressiveDctAc
  | 11 => .LosslessAc
  | _ => .Unknown

/-- Frame component descriptor (decoder.rs lines 25-30). -/
structure FrameComponentHeader where
  id : Nat
  horizontal_sampling_factor : Nat
  vertical_sampling_factor : Nat
  quantization_table_selector : Nat
deriving Repr, DecidableEq

/-- Frame header (decoder.rs lines 16-23); the `[Option<FrameComponentHeader>; 4]`
array is a 4-element list of optional slots. -/
structure FrameHeader where
  encoding_process : EncodingProcess
  precision : Nat
  max_lines : Nat
  max_samples_per_line : Nat
  components_count : Nat
  component_headers : List (Option FrameComponentHeader)
deriving Repr, DecidableEq

/-- Scan component descriptor (decoder.rs lines 56-60). -/
structure ScanComponentHeader where
  scan_component_selector : Nat
  dc_entropy_coding_table_selector : Nat
  ac_entropy_coding_table_selector : Nat
deriving Repr, DecidableEq

/-- Scan header (decoder.rs lines 51-54). -/
structure ScanHeader where
  components_count : Nat
  component_headers : List (Option ScanComponentHeader)
deriving Repr, DecidableEq

/-- Scan record (decoder.rs lines 45-49); components and MCUs are commented
out in the source. -/
structure Scan where
  scan_header : ScanHeader
deriving Repr, DecidableEq

/-- Session state (decoder.rs lines 8-14); each `[Option<T>; 4]` array is a
4-element list of optional slots. -/
structure Image where
  frame_header : Option FrameHeader
  scans : List Scan
  quantization_tables : List (Option (List Nat))
  ac_huffman_tables : List (Option HuffmanTree)
  dc_huffman_tables : List (Option HuffmanTree)
deriving Repr, DecidableEq

/-- Rust `array[i] = Some(v)` on a fixed-size slot array: the index is bounds
checked against the array length and panics when out of range. -/
def setSlot {α : Type} (l : List (Option α)) (i : Nat) (v : α) :
    Except Failure (List (Option α)) :=
  if i < l.length then .ok (l.set i (some v)) else .error .panic

namespace Decoder

/-- Embedding of `Decoder::parse_comment` (decoder.rs lines 145-156): allocate
`size - 2` bytes (checked subtraction), fill them with `read_exact`, print the
comment (dropped). -/
def parse_comment (size : Nat) (input : List Nat) : Except Failure (List Nat) := do
  let n ← subU16 size 2
  let (_, rest) ← read_exact n input
  return rest

/-- Loop body of `Decoder::parse_quantization_table` (decoder.rs lines
216-249): `while bytes_read < size - 2`, read one info byte (high nibble the
element precision, asserted 0; low nibble the destination id), then 64
coefficient bytes, and account `1 + 64 * (precision + 1)` bytes.  Each
iteration adds at least 65 to `bytes_read`, so the fuel `size2 + 1` passed at
entry is never exhausted; exhaustion maps to a panic-like `none`. -/
def parseQTLoop (size2 : Nat) : Nat → Nat → List (Nat × List Nat) → List Nat →
    Except Failure (List (Nat × List Nat) × List Nat)
  | 0, _, _, _ => .error .panic
  | fuel + 1, bytes_read, tables, input =>
    if bytes_read < size2 then do
      let (info, input1) ← read_u8 input
      let bytes_read1 ← addU16 bytes_read 1
      let precision := info / 16
      if precision = 0 then do
        let id := info % 16
        let (tbl, input2) ← read_exact 64 input1
        let bytes_read2 ← addU16 bytes_read1 (64 * (precision + 1))
        parseQTLoop size2 fuel bytes_read2 (tables ++ [(id, tbl)]) input2
      else .error .panic
    else .ok (tables, input)

/-- Embedding of `Decoder::parse_quantization_table`.  The loop bound
`size - 2` is a checked `u16` subtraction evaluated before the first
iteration. -/
def parse_quantization_table (size : Nat) (input : List Nat) :
    Except Failure (List (Nat × List Nat) × List Nat) := do
  let size2 ← subU16 size 2
  parseQTLoop size2 (size2 + 1) 0 [] input

/-- Symbol-reading loop of `Decoder::parse_huffman_table` (decoder.rs lines
188-202): for each of the 16 counts in order, read that many symbol bytes
(a zero count leaves the default empty slot), accounting each byte read.
The byte-at-a-time reads and increments of the source aggregate to one
`read_exact` and one checked addition per slot. -/
def readHuffSlots : List Nat → Nat → List Nat →
    Except Failure (List (List Nat) × Nat × List Nat)
  | [], bytes_read, input => .ok ([], bytes_read, input)
  | cnt :: cnts, bytes_read, input =>
    if cnt = 0 then do
      let (slots, br, rest) ← readHuffSlots cnts bytes_read input
      return ([] :: slots, br, rest)
    else do
      let (vals, input1) ← read_exact cnt input
      let br1 ← addU16 bytes_read cnt
      let (slots, br, rest) ← readHuffSlots cnts br1 input1
      return (vals :: slots, br, rest)

/-- Loop body of `Decoder::parse_huffman_table` (decoder.rs lines 158-214):
`while bytes_read < size - 2`, read one info byte (high nibble the class,
0 = DC and 1 = AC; low nibble the destination id), 16 length-count bytes, and
the symbols of each length slot.  Each iteration adds at least 17 to
`bytes_read`, so the fuel `size2 + 1` passed at entry is never exhausted. -/
def parseHTLoop (size2 : Nat) : Nat → Nat → List (Nat × Nat × HuffmanTable) → List Nat →
    Except Failure (List (Nat × Nat × HuffmanTable) × List Nat)
  | 0, _, _, _ => .error .panic
  | fuel + 1, bytes_read, tables, input =>
    if bytes_read < size2 then do
      let (info, input1) ← read_u8 input
      let bytes_read1 ← addU16 bytes_read 1
      let cls := info / 16
      let id := info % 16
      let (cnts, input2) ← read_exact 16 input1
      let bytes_read2 ← addU16 bytes_read1 16
      let (slots, bytes_read3, input3) ← readHuffSlots cnts bytes_read2 input2
      parseHTLoop size2 fuel bytes_read3 (tables ++ [(cls, id, slots)]) input3
    else .ok (tables, input)

/-- Embedding of `Decoder::parse_huffman_table`. -/
def parse_huffman_table (size : Nat) (input : List Nat) :
    Except Failure (List (Nat × Nat × HuffmanTable) × List Nat) := do
  let size2 ← subU16 size 2
  parseHTLoop size2 (size2 + 1) 0 [] input

/-- Per-component loop of `Decoder::parse_frame_header` (decoder.rs lines
358-384), iterating over the component indices in order: id byte, sampling
byte split into nibbles, quantization-table selector byte, stored into the
bounds-checked component slot. -/
def parseFrameComponentsAux : List Nat → FrameHeader → List Nat →
    Except Failure (FrameHeader × List Nat)
  | [], fh, input => .ok (fh, input)
  | i :: is, fh, input => do
    let (id, i1) ← read_u8 input
    let (sampling_factor, i2) ← read_u8 i1
    let horizontal_sampling_factor := sampling_factor / 16
    let vertical_sampling_factor := sampling_factor % 16
    let (quantization_table_selector, i3) ← read_u8 i2
    let ch : FrameComponentHeader :=
      ⟨id, horizontal_sampling_factor, vertical_sampling_factor, quantization_table_selector⟩
    let slots ← setSlot fh.component_headers i ch
    parseFrameComponentsAux is { fh with component_headers := slots } i3

/-- Embedding of `Decoder::parse_frame_header` (decoder.rs lines 296-387):
the sub-code lookup, then precision (asserted 8), max lines (asserted
nonzero), max samples per line, component count (asserted 3), then the
component descriptors.  The declared segment length is ignored by the source
(`_size`).  An `assert!` failure is a panic. -/
def parse_frame_header (n : Nat) (_size : Nat) (input : List Nat) :
    Except Failure (FrameHeader × List Nat) := do
  let encoding_process := frameEncodingProcess n
  let (precision, i1) ← read_u8 input
  if precision = 8 then do
    let (max_lines, i2) ← read_u16_be i1
    if max_lines ≠ 0 then do
      let (max_samples_per_line, i3) ← read_u16_be i2
      let (components_count, i4) ← read_u8 i3
      if components_count = 3 then
        let fh : FrameHeader :=
          ⟨encoding_process, precision, max_lines, max_samples_per_line,
            components_count, [none, none, none, none]⟩
        parseFrameComponentsAux (List.range components_count) fh i4
      else .error .panic
    else .error .panic
  else .error .panic

/-- Per-component loop of `Decoder::parse_scan_header` (decoder.rs lines
263-288): selector byte, one byte split into DC/AC entropy-table selector
nibbles, stored into the bounds-checked component slot. -/
def parseScanComponentsAux : List Nat → ScanHeader → List Nat →
    Except Failure (ScanHeader × List Nat)
  | [], sh, input => .ok (sh, input)
  | i :: is, sh, input => do
    let (scan_component_selector, i1) ← read_u8 input
    let (selectors, i2) ← read_u8 i1
    let dc_entropy_coding_table_selector := selectors / 16
    let ac_entropy_coding_table_selector := selectors % 16
    let ch : ScanComponentHeader :=
      ⟨scan_component_selector, dc_entropy_coding_table_selector,
        ac_entropy_coding_table_selector⟩
    let slots ← setSlot sh.component_headers i ch
    parseScanComponentsAux is { sh with component_headers := slots } i2

/-- Embedding of `Decoder::parse_scan_header` (decoder.rs lines 251-294):
component count (asserted strictly between 0 and 4), per-component selector
bytes, then 3 skipped trailing bytes.  The declared length and the frame
header are unused by the source. -/
def parse_scan_header (_size : Nat) (_frame_header : FrameHeader) (input : List Nat) :
    Except Failure (ScanHeader × List Nat) := do
  let (components_count, i1) ← read_u8 input
  if 0 < components_count ∧ components_count < 4 then do
    let sh : ScanHeader := ⟨components_count, [none, none, none, none]⟩
    let (sh1, i2) ← parseScanComponentsAux (List.range components_count) sh i1
    let i3 ← skip_bytes 3 i2
    return (sh1, i3)
  else .error .panic

/-- Store loop for parsed quantization tables (decoder.rs lines 106-108):
`image.quantization_tables[table.0 as usize] = Some(table.1)` for each parsed
pair, the index bounds checked against the 4-slot array. -/
def storeQTs : List (Nat × List Nat) → Image → Except Failure Image
  | [], image => .ok image
  | (id, tbl) :: rest, image => do
    let slots ← setSlot image.quantization_tables id tbl
    storeQTs rest { image with quantization_tables := slots }

/-- Store loop for parsed Huffman tables (decoder.rs lines 117-125): build the
tree (a builder panic aborts the decode), ignore the `print_codes` output, and
store it in the DC slots for class 0 and in the AC slots otherwise, the index
bounds checked against the 4-slot array. -/
def storeHTs : List (Nat × Nat × HuffmanTable) → Image → Except Failure Image
  | [], image => .ok image
  | (cls, id, tbl) :: rest, image =>
    match HuffmanTree.new tbl with
    | none => .error .panic
    | some tree =>
      if cls = 0 then do
        let slots ← setSlot image.dc_huffman_tables id tree
        storeHTs rest { image with dc_huffman_tables := slots }
      else do
        let slots ← setSlot image.ac_huffman_tables id tree
        storeHTs rest { image with ac_huffman_tables := slots }

/-- Marker dispatch loop of `Decoder::parse` (decoder.rs lines 91-141).  Any
error of the marker scanner — including `Unsupported` — is replaced by
`Error::Parse("Non allowed marker found")` by the `Err(_)` arm.  A
`StartOfScan` before any frame header unwraps `None` and panics, and
`decode_scan` is a no-op.  The loop ends normally only on `EndOfImage`.  Each
iteration consumes at least two bytes through the marker scanner, so the fuel
`input.length + 1` passed by `parse` is never exhausted; exhaustion maps to a
panic-like outcome. -/
def parseLoop : Nat → Image → List Nat → Except Failure Unit
  | 0, _, _ => .error .panic
  | fuel + 1, image, input =>
    match Marker.from_reader input with
    | .error _ => .error (.err (.Parse "Non allowed marker found"))
    | .ok (marker, rest) =>
      match marker with
      | .StartOfImage => parseLoop fuel image rest
      | .ApplicationSegment _ size => do
          let n ← subU16 size 2
          let rest1 ← skip_bytes n rest
          parseLoop fuel image rest1
      | .Comment size => do
          let rest1 ← parse_comment size rest
          parseLoop fuel image rest1
      | .DefineQuantizationTable size => do
          let (tables, rest1) ← parse_quantization_table size rest
          let image1 ← storeQTs tables image
          parseLoop fuel image1 rest1
      | .StartOfFrame n size => do
          let (fh, rest1) ← parse_frame_header n size rest
          parseLoop fuel { image with frame_header := some fh } rest1
      | .DefineHuffmanTable size => do
          let (tables, rest1) ← parse_huffman_table size rest
          let image1 ← storeHTs tables image
          parseLoop fuel image1 rest1
      | .StartOfScan size =>
          match image.frame_header with
          | none => .error .panic
          | some fh => do
            let (sh, rest1) ← parse_scan_header size fh rest
            parseLoop fuel { image with scans := image.scans ++ [⟨sh⟩] } rest1
      | .EndOfImage => .ok ()

/-- Embedding of `Decoder::parse` (decoder.rs lines 82-143): fresh session
state, then the marker dispatch loop. -/
def parse (input : List Nat) : Except Failure Unit :=
  parseLoop (input.length + 1)
    ⟨none, [], [none, none, none, none], [none, none, none, none],
      [none, none, none, none]⟩ input

/-- Embedding of `Decoder::decode` (decoder.rs lines 77-80): run `parse` and
return `Ok(Vec::new())`. -/
def decode (input : List Nat) : Except Failure (List Nat) :=
  (parse input).map (fun _ => [])

end Decoder

/-
Specification-side definitions: the Kraft weight of a raw table, and the
canonical code assignment the claims describe (left-to-right, shortest
first).  These are the yardsticks the builder is compared against.
-/

/-- Kraft weight of a raw table over 16 levels: the slot of code length `l`
contributes `count · 2 ^ (16 - l)`; the Kraft inequality for 16 levels is
`kraftSum t ≤ 2 ^ 16`, with equality for a saturated (complete) code. -/
def kraftSum : List (List Nat) → Nat
  | [] => 0
  | s :: rest => s.length * 2 ^ rest.length + kraftSum rest

/-- Big-endian bit string of `n` in `w` bits: most significant bit first,
`false` for "0" and `true` for "1". -/
def natToBits : Nat → Nat → List Bool
  | 0, _ => []
  | w + 1, n => natToBits w (n / 2) ++ [n % 2 == 1]

/-- Canonical codes of one level: the `j`-th symbol of the level receives the
`w`-bit code with numeric value `start + j`, in slot order. -/
def canonicalLevel (w start : Nat) (syms : List Nat) : List (List Bool × Nat) :=
  (List.range syms.length).zip syms |>.map (fun p => (natToBits w (start + p.1), p.2))

/-- Canonical code list of a table, level by level, starting at code length
`w` with first code value `start`: after a level of `c` codes the next level
starts at `2 * (start + c)`.  This is the textbook canonical-Huffman
assignment the specification describes. -/
def canonicalCodes : List (List Nat) → Nat → Nat → List (List Bool × Nat)
  | [], _, _ => []
  | syms :: rest, w, start =>
    canonicalLevel w start syms ++ canonicalCodes rest (w + 1) (2 * (start + syms.length))

/-
Concrete inputs used by the claims.
-/

/-- The four-symbol single-length table of claim C2: symbols A, B, C, D
(bytes 65, 66, 67, 68) at code length 2 and nothing else. -/
def tableABCD : HuffmanTable := [[], [65, 66, 67, 68]] ++ List.replicate 14 []

/-- Two symbols at code length 1 and nothing else: a complete (Kraft
equality) code. -/
def tableTwoLenOne : HuffmanTable := [[0, 1]] ++ List.replicate 15 []

/-- One symbol at length 1 and two at length 2: a complete (Kraft equality)
code that saturates level 2. -/
def tableSkewEq : HuffmanTable := [[1], [2, 3]] ++ List.replicate 14 []

/-- One symbol at every code length 1..16: a strict-Kraft table (weight
`2 ^ 16 - 1`). -/
def tableOnePerLevel : HuffmanTable := (List.range 16).map (fun i => [i])

/-- A well-formed 15-byte frame-header payload: precision 8, 1 x 1, three
components. -/
def frameHeaderBytes : List Nat :=
  [8, 0, 1, 0, 1, 3, 1, 0x11, 0, 2, 0x11, 1, 3, 0x11, 1, 42, 43]

/-- The frame header parsed from `frameHeaderBytes`. -/
def frameHeaderOut : FrameHeader :=
  ⟨.BaselineDct, 8, 1, 1, 3,
    [some ⟨1, 1, 1, 0⟩, some ⟨2, 1, 1, 1⟩, some ⟨3, 1, 1, 1⟩, none]⟩

/-- A stream holding one quantization-table segment (declared length 67,
destination id `id`, 64 coefficients of value 7) followed by end-of-image. -/
def dqtStream (id : Nat) : List Nat :=
  [0xff, 0xdb, 0, 67, id] ++ List.replicate 64 7 ++ [0xff, 0xd9]

/-
Proof-side view of the Huffman arena.  The builder is verified through a
level-block invariant: the arena always consists of consecutive index blocks,
one per tree level, each block split into a prefix of assigned leaves and a
suffix of internal nodes whose children form the next block.
-/

namespace HuffmanTree

/-- Field projections through the bounds-checked arena access. -/
def valueAt (nodes : List HuffmanNode) (i : Nat) : Option Nat :=
  (nodes.get? i).map (·.value)

/-- Parent field of node `i`, when it exists. -/
def parentAt (nodes : List HuffmanNode) (i : Nat) : Option (Option Nat) :=
  (nodes.get? i).map (·.parent)

/-- Left-child field of node `i`, when it exists. -/
def leftAt (nodes : List HuffmanNode) (i : Nat) : Option (Option Nat) :=
  (nodes.get? i).map (·.left_child)

/-- Right-child field of node `i`, when it exists. -/
def rightAt (nodes : List HuffmanNode) (i : Nat) : Option (Option Nat) :=
  (nodes.get? i).map (·.right_child)

/-- Valid-leaf flag of node `i`, when it exists. -/
def validAt (nodes : List HuffmanNode) (i : Nat) : Option Bool :=
  (nodes.get? i).map (·.valid_code)

/-- Parent indices strictly decrease: true of every arena the builder
creates, since children are pushed after their parent. -/
def ParentDec (nodes : List HuffmanNode) : Prop :=
  ∀ i n p, nodes.get? i = some n → n.parent = some p → p < i

/-- Every node that names a parent is one of that parent's two (distinct)
children. -/
def WellParented (nodes : List HuffmanNode) : Prop :=
  ∀ i n p, nodes.get? i = some n → n.parent = some p →
    ∃ pn a b, nodes.get? p = some pn ∧ pn.left_child = some a ∧
      pn.right_child = some b ∧ a ≠ b ∧ (i = a ∨ i = b)

/-- Record of one completed tree level: its index block `[base, base+size)`,
the count `cnt` of leaves assigned at this level (a prefix of the block), and
their symbols in order. -/
structure LevelRec where
  base : Nat
  size : Nat
  cnt : Nat
  syms : List Nat
deriving Repr, DecidableEq

/-- Contents of one completed level `r` whose children occupy the next block
starting at `r.base + r.size`: the first `cnt` nodes are valid leaves
carrying `syms`, the remaining `size - cnt` are internal with consecutive
child pairs in the next block, and those children point back at them. -/
def RecClause (nodes : List HuffmanNode) (r : LevelRec) : Prop :=
  r.cnt = r.syms.length ∧ r.cnt < r.size ∧
  (∀ k, k < r.cnt →
    valueAt nodes (r.base + k) = some (r.syms.getD k 0) ∧
    validAt nodes (r.base + k) = some true ∧
    leftAt nodes (r.base + k) = some none ∧ rightAt nodes (r.base + k) = some none) ∧
  (∀ k, r.cnt ≤ k → k < r.size →
    leftAt nodes (r.base + k) = some (some (r.base + r.size + 2 * (k - r.cnt))) ∧
    rightAt nodes (r.base + k) = some (some (r.base + r.size + 2 * (k - r.cnt) + 1)) ∧
    validAt nodes (r.base + k) = some false) ∧
  (∀ j, j < 2 * (r.size - r.cnt) →
    parentAt nodes (r.base + r.size + j) = some (some (r.base + r.cnt + j / 2)))

/-- Chain of completed level blocks from the block `[b, b+m)` down to the
open frontier block `[fb, fb+fm)`. -/
def ChainFrom (nodes : List HuffmanNode) : Nat → Nat → List LevelRec → Nat → Nat → Prop
  | b, m, [], fb, fm => fb = b ∧ fm = m
  | b, m, r :: rest, fb, fm =>
    r.base = b ∧ r.size = m ∧ RecClause nodes r ∧
      ChainFrom nodes (b + m) (2 * (m - r.cnt)) rest fb fm

/-- Invariant at a level boundary of `construct_tree`: the arena is exactly
the chain of completed levels above the all-open frontier block, parent
pointers decrease and stay below the frontier, and every parented node is one
of its parent's two children. -/
structure BuilderInv (nodes : List HuffmanNode) (recs : List LevelRec) (fb fm : Nat) :
    Prop where
  chain : ChainFrom nodes 0 1 recs fb fm
  root : parentAt nodes 0 = some none
  len : nodes.length = fb + fm
  fmpos : 0 < fm
  open_frontier : ∀ k, k < fm → leftAt nodes (fb + k) = some none ∧
    rightAt nodes (fb + k) = some none ∧ validAt nodes (fb + k) = some false
  pdec : ParentDec nodes
  wparent : WellParented nodes
  pbelow : ∀ i n p, nodes.get? i = some n → n.parent = some p → p < fb

/-- Else-branch composite of `get_right_node_on_same_level`: the upward walk
followed by the sibling step and the downward walk, with the same panic
plumbing. -/
def elseWalk (nodes : List HuffmanNode) (x : Nat) : Option (Option Nat) :=
  match upWalk nodes (nodes.length + 1) x 0 with
  | none => none
  | some none => some none
  | some (some (c, d)) =>
    match nodes.get? c with
    | none => none
    | some cn =>
      match cn.parent with
      | none => none
      | some cp =>
        match nodes.get? cp with
        | none => none
        | some cpn =>
          match cpn.right_child with
          | none => none
          | some rc =>
            match downWalk nodes rc d with
            | none => none
            | some r => some (some r)

/-- Step a walk result one level down via the left child (with panic
plumbing): the sibling of a right child is the left child of its parent's
sibling. -/
def afterLeft (nodes : List HuffmanNode) : Option (Option Nat) → Option (Option Nat)
  | none => none
  | some none => some none
  | some (some s) =>
    match nodes.get? s with
    | none => none
    | some sn =>
      match sn.left_child with
      | none => none
      | some ls => some (some ls)

/-- Level records the builder produces for the given slots when the frontier
starts as block `[fb, fb+fm)`. -/
def mkRecs : Nat → Nat → List (List Nat) → List LevelRec
  | _, _, [] => []
  | fb, fm, s :: rest => ⟨fb, fm, s.length, s⟩ :: mkRecs (fb + fm) (2 * (fm - s.length)) rest

/-- Frontier base after processing the given slots. -/
def growBase : Nat → Nat → List (List Nat) → Nat
  | fb, _, [] => fb
  | fb, fm, s :: rest => growBase (fb + fm) (2 * (fm - s.length)) rest

/-- Frontier size after processing the given slots. -/
def growSize : Nat → List (List Nat) → Nat
  | fm, [] => fm
  | fm, s :: rest => growSize (2 * (fm - s.length)) rest

/-- Each slot strictly fits the open frontier of its level: the builder's
no-panic condition.  A frontier of `fm` open nodes absorbs `c < fm` leaves
and descends to `2 * (fm - c)` open nodes. -/
def FitsFrontier : Nat → List (List Nat) → Prop
  | _, [] => True
  | fm, s :: rest => s.length < fm ∧ FitsFrontier (2 * (fm - s.length)) rest

/-- Canonical-code counters stay within level capacity: at code length `w`
the first free code value is `start`, and the level's codes fit below
`2 ^ w`. -/
def StrictFill : Nat → Nat → List (List Nat) → Prop
  | _, _, [] => True
  | w, start, s :: rest =>
    start + s.length ≤ 2 ^ w ∧ StrictFill (w + 1) (2 * (start + s.length)) rest

/-- The three-node arena `new` hands to `construct_tree`'s level loop: the
root wired to its two fresh children. -/
def initialArena : List HuffmanNode :=
  [⟨0, none, some 1, some 2, false⟩, ⟨0, some 0, none, none, false⟩,
    ⟨0, some 0, none, none, false⟩]

end HuffmanTree

/-- Code `c1` lies on the root path of code `c2`: walking `c2` from the root
passes through `c1` (including `c1 = c2`). -/
def isCodePre (c1 c2 : List Bool) : Prop :=
  ∃ s, c1 ++ s = c2

/-
Theorems.  Each claim of the specification audit is settled by exactly one
named theorem below (with a witness where the theorem carries hypotheses);
the supporting lemmas come first.
-/

namespace Marker

theorem skipToFF_length {l r : List Nat} (h : skipToFF l = .ok r) :
    r.length < l.length := by
  induction l with
  | nil => simp [skipToFF] at h
  | cons b rest ih =>
    simp only [skipToFF] at h
    split at h
    · cases h; simp
    · exact Nat.lt_trans (ih h) (by simp)

theorem skipFills_length {l : List Nat} {b : Nat} {r : List Nat}
    (h : skipFills l = .ok (b, r)) : r.length < l.length := by
  induction l with
  | nil => simp [skipFills] at h
  | cons x rest ih =>
    simp only [skipFills] at h
    split at h
    · exact Nat.lt_trans (ih h) (by simp)
    · cases h; simp

theorem fromReaderAux_fuel :
    ∀ (n : Nat) (input : List Nat) (f1 f2 : Nat), input.length ≤ n →
      input.length < f1 → input.length < f2 →
      fromReaderAux f1 input = fromReaderAux f2 input := by
  intro n
  induction n with
  | zero =>
    intro input f1 f2 hn h1 h2
    match f1, h1 with
    | f1 + 1, _ =>
    match f2, h2 with
    | f2 + 1, _ =>
    simp only [fromReaderAux]
    cases hs : skipToFF input with
    | error e => rfl
    | ok r1 =>
      have := skipToFF_length hs
      omega
  | succ n ih =>
    intro input f1 f2 hn h1 h2
    match f1, h1 with
    | f1 + 1, _ =>
    match f2, h2 with
    | f2 + 1, _ =>
    simp only [fromReaderAux]
    cases hs : skipToFF input with
    | error e => rfl
    | ok r1 =>
      cases hf : skipFills r1 with
      | error e => simp only [hf]
      | ok br =>
        obtain ⟨b, r2⟩ := br
        have ha := skipFills_length hf
        have hb := skipToFF_length hs
        simp only [hf]
        split
        · rfl
        · exact ih r2 f1 f2 (by omega) (by omega) (by omega)

theorem skipToFF_append {junk : List Nat} (tail : List Nat)
    (hjunk : ∀ x ∈ junk, x < 256 ∧ x ≠ 0xff) :
    skipToFF (junk ++ 0xff :: tail) = .ok tail := by
  induction junk with
  | nil => simp [skipToFF]
  | cons x xs ih =>
    have hx := hjunk x (by simp)
    have : x % 256 ≠ 0xff := by
      rw [Nat.mod_eq_of_lt hx.1]; exact hx.2
    simp only [List.cons_append, skipToFF, this, if_neg]
    exact ih (fun y hy => hjunk y (by simp [hy]))

theorem skipFills_append {fills : List Nat} (b : Nat) (rest : List Nat)
    (hfills : ∀ x ∈ fills, x = 0xff) (hb : b < 256) (hbff : b ≠ 0xff) :
    skipFills (fills ++ b :: rest) = .ok (b, rest) := by
  induction fills with
  | nil =>
    have hmod : b % 256 = b := Nat.mod_eq_of_lt hb
    simp only [List.nil_append, skipFills, hmod]
    rw [if_neg hbff]
  | cons x xs ih =>
    have hx : x = 0xff := hfills x (by simp)
    subst hx
    simp only [List.cons_append, skipFills, if_pos]
    exact ih (fun y hy => hfills y (by simp [hy]))

end Marker

/-- Claim C4 (confirmed): `Marker::from_reader` skips bytes until a 0xff is
found, absorbs any further 0xff fill bytes, handles a following 0x00 as a
stuffed literal by resuming the outer scan, and classifies the first non-0xff
nonzero byte as the marker code; in particular the stream FF FF FF D8 yields
exactly one StartOfImage marker with nothing left to scan. -/
theorem marker_scanner_spec :
    (∀ junk fills b rest, (∀ x ∈ junk, x < 256 ∧ x ≠ 0xff) → (∀ x ∈ fills, x = 0xff) →
        b < 256 → b ≠ 0x00 → b ≠ 0xff →
        Marker.from_reader (junk ++ 0xff :: (fills ++ b :: rest)) =
          Marker.classifyMarker b rest) ∧
    (∀ junk fills rest, (∀ x ∈ junk, x < 256 ∧ x ≠ 0xff) → (∀ x ∈ fills, x = 0xff) →
        Marker.from_reader (junk ++ 0xff :: (fills ++ 0x00 :: rest)) =
          Marker.from_reader rest) ∧
    Marker.from_reader [0xff, 0xff, 0xff, 0xd8] = .ok (.StartOfImage, []) := by
  refine ⟨?_, ?_, by decide⟩
  · intro junk fills b rest hjunk hfills hb hb0 hbff
    simp only [Marker.from_reader, Marker.fromReaderAux,
      Marker.skipToFF_append _ hjunk, Marker.skipFills_append b rest hfills hb hbff]
    rw [if_pos ⟨hb0, hbff⟩]
  · intro junk fills rest hjunk hfills
    simp only [Marker.from_reader, Marker.fromReaderAux,
      Marker.skipToFF_append _ hjunk,
      Marker.skipFills_append 0 rest hfills (by decide) (by decide)]
    rw [if_neg (by simp)]
    exact Marker.fromReaderAux_fuel rest.length rest _ _ le_rfl
      (by simp [List.length_append]; omega) (Nat.lt_succ_self _)

/-- Claim C4 witness: the general scan theorem applied to the concrete stream
12 FF FF D8 01 02. -/
theorem marker_scanner_spec_witness :
    ((∀ x ∈ [18], x < 256 ∧ x ≠ 0xff) ∧ (∀ x ∈ [0xff], (x : Nat) = 0xff) ∧
      (0xd8 : Nat) < 256 ∧ (0xd8 : Nat) ≠ 0 ∧ (0xd8 : Nat) ≠ 0xff) ∧
      Marker.from_reader ([18] ++ 0xff :: ([0xff] ++ 0xd8 :: [1, 2])) =
        Marker.classifyMarker 0xd8 [1, 2] :=
  ⟨⟨by decide, by decide, by decide, by decide, by decide⟩,
    marker_scanner_spec.1 [18] [0xff] 0xd8 [1, 2] (by decide) (by decide) (by decide)
      (by decide) (by decide)⟩

/-- Claim C2 (code bug): for the raw table with exactly the four symbols
A, B, C, D (65, 66, 67, 68) at code length 2, `HuffmanTree::new` never
returns a tree: the four symbols exhaust the open nodes of level 2, and the
unconditional `leftmost_node.unwrap()` on line 67 of huffman_tree.rs panics
before the builder can return, so the claimed code assignment is never
delivered to the caller. -/
theorem huffman_new_abcd_panics : HuffmanTree.new tableABCD = none := by decide

/-- Claim C6 counterexample: on the stream FF C1 the next scanned marker code
(0xC1) is not in the recognized table, yet the decode call fails with a
`Parse` error, not an `Unsupported` one. -/
theorem unknown_marker_not_unsupported_cex :
    Decoder.decode [0xff, 0xc1] = .error (.err (.Parse "Non allowed marker found")) := by
  decide

/-- Claim C6 (amended): when the marker scanner reports an unsupported marker
code, the decode call does fail, but with a `Parse` error: the `Err(_)` arm
of `Decoder::parse` replaces every scanner error — including `Unsupported` —
by `Error::Parse("Non allowed marker found")`. -/
theorem unknown_marker_decode_parse_error (input : List Nat) (s : String)
    (h : Marker.from_reader input = .error (.err (.Unsupported s))) :
    Decoder.decode input = .error (.err (.Parse "Non allowed marker found")) := by
  unfold Decoder.decode Decoder.parse
  simp only [Decoder.parseLoop, h, Except.map]

/-- Claim C6 witness: the amended theorem applied to the stream FF C1. -/
theorem unknown_marker_decode_parse_error_witness :
    Marker.from_reader [0xff, 0xc1] = .error (.err (.Unsupported "Unsupported marker")) ∧
      Decoder.decode [0xff, 0xc1] = .error (.err (.Parse "Non allowed marker found")) :=
  ⟨by decide, unknown_marker_decode_parse_error [0xff, 0xc1] "Unsupported marker" (by decide)⟩

/-- Claim C7 (code bug, sub-code 9): the frame-header sub-code lookup maps
sub-code 9 to the Huffman-coded extended-sequential variant — even though the
source's own println announces "Extended sequential DCT, arithmetic coding" —
and the arithmetic-coded variant `ExtendedSequentialDctAc` is never produced
for any sub-code. -/
theorem frame_subcode_nine_maps_to_huffman_variant :
    frameEncodingProcess 9 = .ExtendedSequentialDctHc ∧
      ∀ n, frameEncodingProcess n ≠ .ExtendedSequentialDctAc := by
  refine ⟨rfl, fun n => ?_⟩
  unfold frameEncodingProcess
  split <;> simp

/-- Claim C8 counterexample: a quantization-table segment with info byte 4
(destination id 4, within the parsed 4-bit range but outside the 4-slot
array) makes the decode abort on the unchecked array store. -/
theorem destination_id_four_panics_cex :
    Decoder.decode (dqtStream 4) = .error .panic := by decide

/-- Claim C8 (amended): the destination id the orchestrator uses to index the
4-slot table arrays is the info byte's low nibble (0-15) and is not range
checked: ids 0-3 store the table and the decode succeeds, ids 4-15 abort the
decode with the out-of-bounds array panic. -/
theorem destination_id_unchecked_range (id : Nat) (h : id < 16) :
    Decoder.decode (dqtStream id) = if id < 4 then .ok [] else .error .panic := by
  interval_cases id <;> decide

/-- Claim C8 witness: the amended theorem applied to id 5. -/
theorem destination_id_unchecked_range_witness :
    (5 < 16) ∧ Decoder.decode (dqtStream 5) = .error .panic := by
  refine ⟨by decide, ?_⟩
  have h := destination_id_unchecked_range 5 (by decide)
  simpa using h

/-- Claim C5 counterexample: the frame-header parser ignores the declared
segment length: with declared length 20 (so a 18-byte contract) it returns
successfully after consuming only the 15 bytes its record structure dictates,
leaving the two extra payload bytes unread. -/
theorem frame_header_ignores_length_cex :
    Decoder.parse_frame_header 0 20 frameHeaderBytes = .ok (frameHeaderOut, [42, 43]) := by
  decide

theorem parseQTLoop_done {size2 fuel bytes_read : Nat}
    (tables : List (Nat × List Nat)) (input : List Nat) (h : ¬ bytes_read < size2) :
    Decoder.parseQTLoop size2 (fuel + 1) bytes_read tables input = .ok (tables, input) := by
  simp only [Decoder.parseQTLoop, if_neg h]

theorem parseQTLoop_step {size2 fuel bytes_read : Nat}
    (tables : List (Nat × List Nat)) (input : List Nat) (h : bytes_read < size2) :
    Decoder.parseQTLoop size2 (fuel + 1) bytes_read tables input = (do
      let (info, input1) ← read_u8 input
      let bytes_read1 ← addU16 bytes_read 1
      let precision := info / 16
      if precision = 0 then do
        let id := info % 16
        let (tbl, input2) ← read_exact 64 input1
        let bytes_read2 ← addU16 bytes_read1 (64 * (precision + 1))
        Decoder.parseQTLoop size2 fuel bytes_read2 (tables ++ [(id, tbl)]) input2
      else .error .panic) := by
  simp only [Decoder.parseQTLoop, if_pos h]

/-- Claim C5 (amended): when the declared length is exactly one 8-bit
quantization record (67 = 2 length bytes + 1 info byte + 64 coefficients),
the quantization-table parser consumes exactly the 65 post-length bytes and
yields exactly one (destination id, table) pair.  (The four parsers do not in
general consume exactly `declared length - 2`: the frame and scan header
parsers ignore the declared length — see the counterexample — and the table
parsers consume whole records, overrunning a misaligned declared length.) -/
theorem quantization_segment_length_67 (info : Nat) (coeffs rest : List Nat)
    (hinfo : info < 16) (hlen : coeffs.length = 64) (hbytes : ∀ c ∈ coeffs, c < 256) :
    Decoder.parse_quantization_table 67 (info :: (coeffs ++ rest)) =
      .ok ([(info, coeffs)], rest) := by
  have hmod : info % 256 = info := Nat.mod_eq_of_lt (by omega)
  have hdiv : info / 16 = 0 := Nat.div_eq_of_lt hinfo
  have hmod16 : info % 16 = info := Nat.mod_eq_of_lt hinfo
  have hexact : read_exact 64 (coeffs ++ rest) = .ok (coeffs, rest) := by
    have htake : (coeffs ++ rest).take 64 = coeffs := by
      rw [← hlen]; exact List.take_left coeffs rest
    have hdrop : (coeffs ++ rest).drop 64 = rest := by
      rw [← hlen]; exact List.drop_left coeffs rest
    have hmap : coeffs.map (· % 256) = coeffs := by
      have h1 : coeffs.map (· % 256) = coeffs.map id :=
        List.map_congr_left (fun c hc => Nat.mod_eq_of_lt (hbytes c hc))
      simpa using h1
    unfold read_exact
    rw [if_neg (by simp [hlen]), htake, hdrop, hmap]
  unfold Decoder.parse_quantization_table
  rw [show subU16 67 2 = Except.ok 65 from rfl]
  show Decoder.parseQTLoop 65 (65 + 1) 0 [] (info :: (coeffs ++ rest)) = _
  rw [parseQTLoop_step _ _ (by norm_num)]
  norm_num [read_u8, bind, Except.bind, hmod, hdiv, hmod16, addU16, hexact]
  rw [show Decoder.parseQTLoop 65 65 65 [(info, coeffs)] rest = .ok ([(info, coeffs)], rest)
        from parseQTLoop_done _ _ (by omega)]

/-- Claim C5 witness: the amended theorem applied to info byte 3 and 64
coefficients of value 7 with one trailing byte. -/
theorem quantization_segment_length_67_witness :
    (3 < 16 ∧ (List.replicate 64 7).length = 64 ∧ ∀ c ∈ List.replicate 64 7, c < 256) ∧
      Decoder.parse_quantization_table 67 (3 :: (List.replicate 64 7 ++ [9])) =
        .ok ([(3, List.replicate 64 7)], [9]) :=
  ⟨⟨by decide, by decide, by decide⟩,
    quantization_segment_length_67 3 (List.replicate 64 7) [9] (by decide) (by decide)
      (by decide)⟩

theorem parseFrameComponentsAux_fields (is : List Nat) :
    ∀ (fh : FrameHeader) (input : List Nat) (fh1 : FrameHeader) (rest : List Nat),
      Decoder.parseFrameComponentsAux is fh input = .ok (fh1, rest) →
      fh1.precision = fh.precision ∧ fh1.max_lines = fh.max_lines ∧
        fh1.components_count = fh.components_count := by
  induction is with
  | nil =>
    intro fh input fh1 rest h
    simp only [Decoder.parseFrameComponentsAux, Except.ok.injEq, Prod.mk.injEq] at h
    obtain ⟨rfl, rfl⟩ := h
    exact ⟨rfl, rfl, rfl⟩
  | cons i is ih =>
    intro fh input fh1 rest h
    simp only [Decoder.parseFrameComponentsAux, bind, Except.bind] at h
    cases h1 : read_u8 input with
    | error e => rw [h1] at h; simp at h
    | ok pr1 =>
      obtain ⟨cid, i1⟩ := pr1
      rw [h1] at h
      dsimp only at h
      cases h2 : read_u8 i1 with
      | error e => rw [h2] at h; simp at h
      | ok pr2 =>
        obtain ⟨sf, i2⟩ := pr2
        rw [h2] at h
        dsimp only at h
        cases h3 : read_u8 i2 with
        | error e => rw [h3] at h; simp at h
        | ok pr3 =>
          obtain ⟨q, i3⟩ := pr3
          rw [h3] at h
          dsimp only at h
          cases h4 : setSlot fh.component_headers i
              ⟨cid, sf / 16, sf % 16, q⟩ with
          | error e => rw [h4] at h; simp at h
          | ok slots =>
            rw [h4] at h
            dsimp only at h
            have hrec := ih _ _ _ _ h
            simpa using hrec

/-- Claim C9 (confirmed): the frame-header parser aborts on every violated
asserted invariant — a successful parse always reports precision 8, a nonzero
max-lines value and component count 3; and a start-of-frame segment declaring
component count 2 fails with a panic, both at the parser and through the full
decode call. -/
theorem frame_header_assert_invariants :
    (∀ n size input fh rest,
        Decoder.parse_frame_header n size input = .ok (fh, rest) →
        fh.precision = 8 ∧ fh.max_lines ≠ 0 ∧ fh.components_count = 3) ∧
    (∀ rest, Decoder.parse_frame_header 0 17 ([8, 0, 1, 0, 1, 2] ++ rest) =
      .error .panic) ∧
    (∀ rest, Decoder.decode ([0xff, 0xc0, 0, 17, 8, 0, 1, 0, 1, 2] ++ rest) =
      .error .panic) := by
  refine ⟨?_, fun rest => rfl, fun rest => rfl⟩
  intro n size input fh rest h
  simp only [Decoder.parse_frame_header, bind, Except.bind] at h
  cases h1 : read_u8 input with
  | error e => rw [h1] at h; simp at h
  | ok pr1 =>
    obtain ⟨precision, i1⟩ := pr1
    rw [h1] at h
    dsimp only at h
    split at h
    case isFalse => simp at h
    case isTrue hp =>
      cases h2 : read_u16_be i1 with
      | error e => rw [h2] at h; simp at h
      | ok pr2 =>
        obtain ⟨max_lines, i2⟩ := pr2
        rw [h2] at h
        dsimp only at h
        split at h
        case isFalse => simp at h
        case isTrue hml =>
          cases h3 : read_u16_be i2 with
          | error e => rw [h3] at h; simp at h
          | ok pr3 =>
            obtain ⟨samples, i3⟩ := pr3
            rw [h3] at h
            dsimp only at h
            cases h4 : read_u8 i3 with
            | error e => rw [h4] at h; simp at h
            | ok pr4 =>
              obtain ⟨cc, i4⟩ := pr4
              rw [h4] at h
              dsimp only at h
              split at h
              case isFalse => simp at h
              case isTrue hcc =>
                have hf := parseFrameComponentsAux_fields _ _ _ _ _ h
                refine ⟨?_, ?_, ?_⟩
                · rw [hf.1, hp]
                · rw [hf.2.1]; exact hml
                · rw [hf.2.2, hcc]

/-- Claim C9 witness: the invariant conjunct applied to a successful parse of
a well-formed frame header. -/
theorem frame_header_assert_invariants_witness :
    Decoder.parse_frame_header 0 17 frameHeaderBytes = .ok (frameHeaderOut, [42, 43]) ∧
      (frameHeaderOut.precision = 8 ∧ frameHeaderOut.max_lines ≠ 0 ∧
        frameHeaderOut.components_count = 3) :=
  ⟨by decide, frame_header_assert_invariants.1 0 17 frameHeaderBytes frameHeaderOut
    [42, 43] (by decide)⟩

/-- Claim C10 (confirmed): whenever `decode` succeeds, the value handed to
the caller is the empty byte vector — `Decoder::decode` runs `parse` for its
effect on the internal `Image` aggregate and returns `Ok(Vec::new())`. -/
theorem decode_returns_empty_vector (input v : List Nat)
    (h : Decoder.decode input = .ok v) : v = [] := by
  unfold Decoder.decode at h
  cases hp : Decoder.parse input with
  | error e => rw [hp] at h; simp [Except.map] at h
  | ok u => rw [hp] at h; simp [Except.map] at h; exact h

/-- Claim C10 witness: the theorem applied to the two-marker stream
SOI, EOI. -/
theorem decode_returns_empty_vector_witness :
    Decoder.decode [0xff, 0xd8, 0xff, 0xd9] = .ok [] ∧ ([] : List Nat) = [] :=
  ⟨by decide, decode_returns_empty_vector [0xff, 0xd8, 0xff, 0xd9] [] (by decide)⟩

namespace HuffmanTree

theorem get?_length {l : List HuffmanNode} {i : Nat} {n : HuffmanNode}
    (h : l.get? i = some n) : i < l.length := by
  by_contra hc
  rw [List.get?_len_le (Nat.le_of_not_lt hc)] at h
  cases h

theorem get?_set_self {l : List HuffmanNode} {i : Nat} (a : HuffmanNode)
    (h : i < l.length) : (l.set i a).get? i = some a := by
  rw [List.get?_set_eq, List.get?_eq_get h]
  rfl

/-- Unfolding of `add_empty_childs` at a live index: two fresh children
appended, the node rewired at them, everything else untouched. -/
theorem add_empty_childs_spec {nodes : List HuffmanNode} {x : Nat} {xn : HuffmanNode}
    (hx : nodes.get? x = some xn) :
    ∃ nodes1, add_empty_childs nodes x = some nodes1 ∧
      nodes1.length = nodes.length + 2 ∧
      nodes1.get? x = some { xn with left_child := some nodes.length,
                                     right_child := some (nodes.length + 1) } ∧
      (∀ i, i ≠ x → i < nodes.length → nodes1.get? i = nodes.get? i) ∧
      nodes1.get? nodes.length = some (HuffmanNode.new_with_parent x) ∧
      nodes1.get? (nodes.length + 1) = some (HuffmanNode.new_with_parent x) := by
  have hxlen : x < nodes.length := get?_length hx
  have hget2 : ((nodes ++ [HuffmanNode.new_with_parent x]) ++
      [HuffmanNode.new_with_parent x]).get? x = some xn := by
    rw [List.get?_append (by simp; omega), List.get?_append hxlen]
    exact hx
  have hrun : add_empty_childs nodes x = some (((nodes ++ [HuffmanNode.new_with_parent x]) ++
      [HuffmanNode.new_with_parent x]).set x
      { xn with left_child := some nodes.length,
                right_child := some (nodes ++ [HuffmanNode.new_with_parent x]).length }) := by
    simp only [add_empty_childs]
    rw [hget2]
  rw [show (nodes ++ [HuffmanNode.new_with_parent x]).length = nodes.length + 1 by simp]
    at hrun
  refine ⟨_, hrun, ?_, ?_, ?_, ?_, ?_⟩
  · simp
  · rw [get?_set_self _ (by simp; omega)]
  · intro i hne hlt
    rw [List.get?_set_ne _ _ (fun hexact => hne hexact.symm),
      List.get?_append (by simp; omega), List.get?_append hlt]
  · rw [List.get?_set_ne _ _ (by omega),
      List.get?_append (by simp), List.get?_append_right le_rfl]
    simp
  · rw [List.get?_set_ne _ _ (by omega),
      List.get?_append_right (by simp)]
    simp

/-- Fuel above `current + 1` is irrelevant to the upward walk when parent
indices decrease. -/
theorem upWalk_fuel {nodes : List HuffmanNode} (hdec : ParentDec nodes) :
    ∀ current fuel d, current < fuel →
      upWalk nodes fuel current d = upWalk nodes (current + 1) current d := by
  intro current
  induction current using Nat.strong_induction_on with
  | _ current ih =>
    intro fuel d hf
    match fuel, hf with
    | fuel + 1, _ =>
    simp only [upWalk]
    cases hg : nodes.get? current with
    | none => rfl
    | some cn =>
      dsimp only
      cases hp : cn.parent with
      | none => rfl
      | some p =>
        dsimp only
        cases hpn : nodes.get? p with
        | none => rfl
        | some pn =>
          dsimp only
          cases hrc : pn.right_child with
          | none => rfl
          | some rc =>
            dsimp only
            split
            · rfl
            · have hplt : p < current := hdec _ _ _ hg hp
              rw [ih p hplt fuel (d + 1) (by omega),
                ih p hplt current (d + 1) (by omega)]

/-- The accumulated depth is a pure offset of the upward walk's result. -/
theorem upWalk_shift {nodes : List HuffmanNode} :
    ∀ fuel current d t,
      upWalk nodes fuel current (d + t) =
        match upWalk nodes fuel current d with
        | none => none
        | some none => some none
        | some (some (a, dd)) => some (some (a, dd + t)) := by
  intro fuel
  induction fuel with
  | zero => intro c d t; rfl
  | succ fuel ih =>
    intro c d t
    simp only [upWalk]
    cases hg : nodes.get? c with
    | none => rfl
    | some cn =>
      dsimp only
      cases hp : cn.parent with
      | none => rfl
      | some p =>
        dsimp only
        cases hpn : nodes.get? p with
        | none => rfl
        | some pn =>
          dsimp only
          cases hrc : pn.right_child with
          | none => rfl
          | some rc =>
            dsimp only
            split
            · rfl
            · rw [show d + t + 1 = (d + 1) + t by omega]
              exact ih p (d + 1) t

/-- Peeling the downward walk from below: descending `d + 1` levels is
descending `d` levels and stepping to the left child. -/
theorem downWalk_succ {nodes : List HuffmanNode} :
    ∀ d s, downWalk nodes s (d + 1) =
      match downWalk nodes s d with
      | none => none
      | some rr =>
        match nodes.get? rr with
        | none => none
        | some rn =>
          match rn.left_child with
          | none => none
          | some ls => some ls := by
  intro d
  induction d with
  | zero =>
    intro s
    cases hg : nodes.get? s with
    | none => simp [downWalk, hg]
    | some n =>
      cases hl : n.left_child with
      | none => simp [downWalk, hg, hl]
      | some lc => simp [downWalk, hg, hl]
  | succ d ih =>
    intro s
    conv_lhs => rw [downWalk]
    cases hg : nodes.get? s with
    | none =>
      conv_rhs => rw [downWalk]
      rw [hg]
    | some n =>
      dsimp only
      cases hl : n.left_child with
      | none =>
        conv_rhs => rw [downWalk]
        rw [hg]
        dsimp only
        rw [hl]
      | some lc =>
        dsimp only
        rw [ih lc]
        conv_rhs => rw [downWalk]
        rw [hg]
        dsimp only
        rw [hl]

/-- At a node that is not its parent's left child, the source's else branch
is the composite walk `elseWalk`. -/
theorem get_right_else {nodes : List HuffmanNode} {x p : Nat} {xn pn : HuffmanNode}
    {a : Nat} (hx : nodes.get? x = some xn) (hp : xn.parent = some p)
    (hpn : nodes.get? p = some pn) (hl : pn.left_child = some a) (hne : a ≠ x) :
    get_right_node_on_same_level nodes (some x) = elseWalk nodes x := by
  simp only [get_right_node_on_same_level, hx, hp, hpn, hl, Option.elim]
  rw [if_neg (by simpa using hne)]
  rfl

/-- At a node without a parent, `get_right_node_on_same_level` and `elseWalk`
agree (both report the end of the level). -/
theorem get_right_root {nodes : List HuffmanNode} {x : Nat} {xn : HuffmanNode}
    (hx : nodes.get? x = some xn) (hp : xn.parent = none) :
    get_right_node_on_same_level nodes (some x) = some none := by
  simp only [get_right_node_on_same_level, hx, hp]

/-- Walking right from a node that is its parent's right child: the composite
walk lands exactly one left-child step below the walk from the parent.  This
is the recursive heart of the sibling-walk argument. -/
theorem elseWalk_right_child {nodes : List HuffmanNode} {x p : Nat}
    {xn pn : HuffmanNode} (hdec : ParentDec nodes) (hwp : WellParented nodes)
    (hx : nodes.get? x = some xn) (hxp : xn.parent = some p)
    (hpn : nodes.get? p = some pn) (hr : pn.right_child = some x) :
    elseWalk nodes x = afterLeft nodes (get_right_node_on_same_level nodes (some p)) := by
  have hpx : p < x := hdec _ _ _ hx hxp
  have hxlen : x < nodes.length := get?_length hx
  have hstep : upWalk nodes (nodes.length + 1) x 0 = upWalk nodes (p + 1) p 1 := by
    conv_lhs => rw [upWalk]
    rw [hx]
    dsimp only
    rw [hxp]
    dsimp only
    rw [hpn]
    dsimp only
    rw [hr]
    dsimp only
    rw [if_neg (by simp)]
    exact upWalk_fuel hdec p nodes.length 1 (by omega)
  have hshift : upWalk nodes (p + 1) p 1 =
      match upWalk nodes (p + 1) p 0 with
      | none => none
      | some none => some none
      | some (some (a, dd)) => some (some (a, dd + 1)) := by
    have hsh := @upWalk_shift nodes (p + 1) p 0 1
    simpa using hsh
  cases hgp : pn.parent with
  | none =>
    have hup : upWalk nodes (p + 1) p 0 = some none := by
      simp only [upWalk, hpn, hgp]
    rw [get_right_root hpn hgp]
    simp only [elseWalk, hstep, hshift, hup, afterLeft]
  | some g =>
    obtain ⟨gn, a, bb, hgn, hgl, hgr, hab, hor⟩ := hwp p pn g hpn hgp
    cases hor with
    | inl hpa =>
      subst hpa
      have hup : upWalk nodes (p + 1) p 0 = some (some (p, 0)) := by
        simp only [upWalk, hpn, hgp, hgn, hgr]
        rw [if_pos (show bb ≠ p from fun h => hab h.symm)]
      have hgrp : get_right_node_on_same_level nodes (some p) = some (some bb) := by
        simp only [get_right_node_on_same_level, hpn, hgp, hgn, hgl, Option.elim]
        rw [if_pos (by simp), hgr]
      rw [hgrp]
      simp only [elseWalk, hstep, hshift, hup]
      simp only [hpn, hgp, hgn, hgr, afterLeft]
      rw [show (1 : Nat) = 0 + 1 from rfl, downWalk_succ]
      simp only [downWalk]
      cases hbb : nodes.get? bb with
      | none => rfl
      | some sn =>
        dsimp only
        cases sn.left_child <;> rfl
    | inr hpb =>
      subst hpb
      have hup : upWalk nodes (p + 1) p 0 = upWalk nodes p g 1 := by
        simp only [upWalk, hpn, hgp, hgn, hgr]
        rw [if_neg (by simp)]
      rw [get_right_else hpn hgp hgn hgl hab]
      simp only [elseWalk]
      rw [hstep, hshift, upWalk_fuel hdec p (nodes.length + 1) 0 (by omega), hup]
      cases hw : upWalk nodes p g 1 with
      | none => rfl
      | some w1 =>
        cases w1 with
        | none => rfl
        | some cd =>
          obtain ⟨cc, dd⟩ := cd
          dsimp only
          cases hcc : nodes.get? cc with
          | none => rfl
          | some cn2 =>
            dsimp only
            cases hcp : cn2.parent with
            | none => rfl
            | some cp =>
              dsimp only
              cases hcpn : nodes.get? cp with
              | none => rfl
              | some cpn =>
                dsimp only
                cases hrc2 : cpn.right_child with
                | none => rfl
                | some rc =>
                  dsimp only
                  rw [downWalk_succ]
                  cases hdw : downWalk nodes rc dd with
                  | none => rfl
                  | some rr =>
                    dsimp only
                    simp only [afterLeft]
                    cases hrr : nodes.get? rr with
                    | none => rfl
                    | some rn =>
                      dsimp only
                      cases rn.left_child <;> rfl

theorem projAt_some {α : Type} {f : HuffmanNode → α} {nodes : List HuffmanNode}
    {i : Nat} {v : α} (h : (nodes.get? i).map f = some v) :
    ∃ n, nodes.get? i = some n ∧ f n = v := by
  cases hg : nodes.get? i with
  | none => rw [hg] at h; cases h
  | some n =>
    rw [hg] at h
    exact ⟨n, rfl, by simpa using h⟩

theorem fields_some {nodes : List HuffmanNode} {i : Nat} {lo ro : Option Nat}
    (hl : leftAt nodes i = some lo) (hr : rightAt nodes i = some ro) :
    ∃ n, nodes.get? i = some n ∧ n.left_child = lo ∧ n.right_child = ro := by
  obtain ⟨n, hg, hfl⟩ := projAt_some hl
  obtain ⟨n2, hg2, hfr⟩ := projAt_some hr
  rw [hg] at hg2
  cases hg2
  exact ⟨n, hg, hfl, hfr⟩

theorem chainFrom_append {nodes : List HuffmanNode} (rs : List LevelRec) (r : LevelRec) :
    ∀ b m fb fm, ChainFrom nodes b m (rs ++ [r]) fb fm ↔
      (ChainFrom nodes b m rs r.base r.size ∧ RecClause nodes r ∧
        fb = r.base + r.size ∧ fm = 2 * (r.size - r.cnt)) := by
  induction rs with
  | nil =>
    intro b m fb fm
    constructor
    · rintro ⟨hb, hm, hrc, hfb, hfm⟩
      exact ⟨⟨hb, hm⟩, hrc, by omega, by omega⟩
    · rintro ⟨⟨hb, hm⟩, hrc, hfb, hfm⟩
      exact ⟨hb, hm, hrc, by omega, by omega⟩
  | cons q qs ih =>
    intro b m fb fm
    constructor
    · rintro ⟨hb, hm, hq, hrest⟩
      obtain ⟨hc, hrc, hfb, hfm⟩ := (ih _ _ _ _).mp hrest
      exact ⟨⟨hb, hm, hq, hc⟩, hrc, hfb, hfm⟩
    · rintro ⟨⟨hb, hm, hq, hc⟩, hrc, hfb, hfm⟩
      exact ⟨hb, hm, hq, (ih _ _ _ _).mpr ⟨hc, hrc, hfb, hfm⟩⟩

/-- Main sibling-walk lemma: inside a well-formed chain, the source's
`get_right_node_on_same_level` maps the `k`-th frontier node to the
`(k+1)`-th, and the last one to `None`. -/
theorem walk_chain (recs : List LevelRec) :
    ∀ (nodes : List HuffmanNode) (fb fm : Nat),
      ChainFrom nodes 0 1 recs fb fm →
      parentAt nodes 0 = some none →
      ParentDec nodes → WellParented nodes →
      ∀ k, k < fm →
        get_right_node_on_same_level nodes (some (fb + k)) =
          some (if k + 1 < fm then some (fb + k + 1) else none) := by
  induction recs using List.reverseRecOn with
  | nil =>
    intro nodes fb fm hchain hroot hdec hwp k hk
    obtain ⟨hfb, hfm⟩ := hchain
    subst hfb; subst hfm
    interval_cases k
    obtain ⟨n0, hg0, hp0⟩ := projAt_some hroot
    rw [get_right_root hg0 hp0]
    norm_num
  | append_singleton rs r ih =>
    intro nodes fb fm hchain hroot hdec hwp k hk
    obtain ⟨hc, hrc, hfb, hfm⟩ := (chainFrom_append rs r 0 1 fb fm).mp hchain
    subst hfb; subst hfm
    obtain ⟨hsym, hcnt, hleaf, hint, hpar⟩ := hrc
    have hj : r.cnt + k / 2 < r.size := by omega
    have hintp := hint (r.cnt + k / 2) (by omega) hj
    obtain ⟨pn, hgp, hpl, hpr⟩ := fields_some hintp.1 hintp.2.1
    have hxk := hpar k hk
    obtain ⟨xn, hgx, hxp⟩ := projAt_some hxk
    have hpbase : r.base + (r.cnt + k / 2) = r.base + r.cnt + k / 2 := by omega
    rw [hpbase] at hgp
    rcases Nat.even_or_odd k with he | ho
    · -- left child: the sibling is the next frontier node
      have hkk : 2 * (k / 2) = k := by
        obtain ⟨t, ht⟩ := he; omega
      have hxeq : r.base + r.size + 2 * (r.cnt + k / 2 - r.cnt) = r.base + r.size + k := by
        omega
      rw [hxeq] at hpl
      have hkk1 : k + 1 < 2 * (r.size - r.cnt) := by omega
      rw [if_pos hkk1]
      simp only [get_right_node_on_same_level, hgx, hxp, hgp, hpl, Option.elim]
      rw [if_pos (by simp)]
      have hreq : r.base + r.size + 2 * (r.cnt + k / 2 - r.cnt) + 1 =
          r.base + r.size + k + 1 := by omega
      rw [hpr, hreq]
    · -- right child: one left-child step below the walk from the parent
      have hkk : 2 * (k / 2) + 1 = k := by
        obtain ⟨t, ht⟩ := ho; omega
      have hleq : r.base + r.size + 2 * (r.cnt + k / 2 - r.cnt) = r.base + r.size + (k - 1) := by
        omega
      have hreq : r.base + r.size + 2 * (r.cnt + k / 2 - r.cnt) + 1 = r.base + r.size + k := by
        omega
      rw [hleq] at hpl
      rw [hreq] at hpr
      have hne : r.base + r.size + (k - 1) ≠ r.base + r.size + k := by omega
      rw [get_right_else hgx hxp hgp hpl hne,
        elseWalk_right_child hdec hwp hgx hxp hgp hpr]
      have hihp := ih nodes r.base r.size hc hroot hdec hwp (r.cnt + k / 2) hj
      rw [hpbase] at hihp
      rw [hihp]
      by_cases hnext : r.cnt + k / 2 + 1 < r.size
      · rw [if_pos hnext]
        have hnint := hint (r.cnt + k / 2 + 1) (by omega) hnext
        obtain ⟨qn, hgq, hql, hqr⟩ := fields_some hnint.1 hnint.2.1
        have hqeq : r.base + (r.cnt + k / 2 + 1) = r.base + r.cnt + k / 2 + 1 := by omega
        rw [hqeq] at hgq
        simp only [afterLeft, hgq, hql]
        have hlval : r.base + r.size + 2 * (r.cnt + k / 2 + 1 - r.cnt) =
            r.base + r.size + (k + 1) := by omega
        rw [hlval, if_pos (by omega)]
        simp only [Option.some.injEq]
        omega
      · rw [if_neg hnext]
        simp only [afterLeft]
        rw [if_neg (by omega)]

theorem projections_eq {n0 n1 : List HuffmanNode} {i : Nat}
    (h : n1.get? i = n0.get? i) :
    valueAt n1 i = valueAt n0 i ∧ parentAt n1 i = parentAt n0 i ∧
      leftAt n1 i = leftAt n0 i ∧ rightAt n1 i = rightAt n0 i ∧
      validAt n1 i = validAt n0 i := by
  unfold valueAt parentAt leftAt rightAt validAt
  rw [h]
  exact ⟨rfl, rfl, rfl, rfl, rfl⟩

theorem chainFrom_le {nodes : List HuffmanNode} :
    ∀ (recs : List LevelRec) (b m fb fm : Nat),
      ChainFrom nodes b m recs fb fm → b + m ≤ fb + fm := by
  intro recs
  induction recs with
  | nil =>
    intro b m fb fm h
    obtain ⟨h1, h2⟩ := h
    omega
  | cons r rs ih =>
    intro b m fb fm h
    obtain ⟨hb, hm, hrc, hrest⟩ := h
    have := ih _ _ _ _ hrest
    omega

theorem chainFrom_cons_le {nodes : List HuffmanNode} :
    ∀ (recs : List LevelRec) (r : LevelRec) (b m fb fm : Nat),
      ChainFrom nodes b m (r :: recs) fb fm → b + m ≤ fb := by
  intro recs
  induction recs with
  | nil =>
    intro r b m fb fm h
    obtain ⟨hb, hm, hrc, hfb, hfm⟩ := h
    omega
  | cons q qs ih =>
    intro r b m fb fm h
    obtain ⟨hb, hm, hrc, hrest⟩ := h
    have := ih q (b + m) (2 * (m - r.cnt)) fb fm hrest
    omega

theorem recClause_stable {n0 n1 : List HuffmanNode} {r : LevelRec} {fb fm : Nat}
    (hlow : ∀ i, i < fb → n1.get? i = n0.get? i)
    (hpar : ∀ i, i < fb + fm → parentAt n1 i = parentAt n0 i)
    (hbound : r.base + r.size ≤ fb)
    (hchild : r.base + r.size + 2 * (r.size - r.cnt) ≤ fb + fm)
    (h : RecClause n0 r) : RecClause n1 r := by
  obtain ⟨hsym, hcnt, hleaf, hint, hpar0⟩ := h
  refine ⟨hsym, hcnt, ?_, ?_, ?_⟩
  · intro k hk
    obtain ⟨e1, e2, e3, e4, e5⟩ := projections_eq (hlow (r.base + k) (by omega))
    obtain ⟨f1, f2, f3, f4⟩ := hleaf k hk
    exact ⟨e1.trans f1, e5.trans f2, e3.trans f3, e4.trans f4⟩
  · intro k hk1 hk2
    obtain ⟨e1, e2, e3, e4, e5⟩ := projections_eq (hlow (r.base + k) (by omega))
    obtain ⟨f1, f2, f3⟩ := hint k hk1 hk2
    exact ⟨e3.trans f1, e4.trans f2, e5.trans f3⟩
  · intro j hj
    exact (hpar (r.base + r.size + j) (by omega)).trans (hpar0 j hj)

theorem chainFrom_stable {n0 n1 : List HuffmanNode} {fb fm : Nat}
    (hlow : ∀ i, i < fb → n1.get? i = n0.get? i)
    (hpar : ∀ i, i < fb + fm → parentAt n1 i = parentAt n0 i) :
    ∀ (recs : List LevelRec) (b m : Nat),
      ChainFrom n0 b m recs fb fm → ChainFrom n1 b m recs fb fm := by
  intro recs
  induction recs with
  | nil => intro b m h; exact h
  | cons r rs ih =>
    intro b m h
    obtain ⟨hb, hm, hrc, hrest⟩ := h
    have hbound : b + m ≤ fb := chainFrom_cons_le rs r b m fb fm ⟨hb, hm, hrc, hrest⟩
    have hchild : (b + m) + 2 * (m - r.cnt) ≤ fb + fm := chainFrom_le rs _ _ _ _ hrest
    exact ⟨hb, hm, recClause_stable hlow hpar (by omega) (by omega) hrc, ih _ _ hrest⟩

/-- One pass of the inner grow loops of `construct_tree`: the frontier node at
position `j` (whose block anchor is position `a`) receives its two children at
the end of the arena, every invariant survives, and the sibling walk finds the
next open node (or the end of the level). -/
theorem grow_one_step {nodes : List HuffmanNode} {recs : List LevelRec} {fb fm a j : Nat}
    (hchain : ChainFrom nodes 0 1 recs fb fm)
    (hroot : parentAt nodes 0 = some none)
    (hdec : ParentDec nodes) (hwp : WellParented nodes)
    (hlen : nodes.length = fb + fm + 2 * (j - a))
    (haj : a ≤ j) (hjfm : j < fm)
    (hopen : ∀ t, j ≤ t → t < fm → ∃ n, nodes.get? (fb + t) = some n ∧
      n.left_child = none ∧ n.right_child = none)
    (hplt : ∀ i n p, nodes.get? i = some n → n.parent = some p → p < fb + j) :
    ∃ nodes1, add_empty_childs nodes (fb + j) = some nodes1 ∧
      nodes1.length = fb + fm + 2 * (j + 1 - a) ∧
      (∀ i, i ≠ fb + j → i < nodes.length → nodes1.get? i = nodes.get? i) ∧
      leftAt nodes1 (fb + j) = some (some (fb + fm + 2 * (j - a))) ∧
      rightAt nodes1 (fb + j) = some (some (fb + fm + 2 * (j - a) + 1)) ∧
      parentAt nodes1 (fb + j) = parentAt nodes (fb + j) ∧
      validAt nodes1 (fb + j) = validAt nodes (fb + j) ∧
      valueAt nodes1 (fb + j) = valueAt nodes (fb + j) ∧
      nodes1.get? (fb + fm + 2 * (j - a)) =
        some (HuffmanNode.new_with_parent (fb + j)) ∧
      nodes1.get? (fb + fm + 2 * (j - a) + 1) =
        some (HuffmanNode.new_with_parent (fb + j)) ∧
      ChainFrom nodes1 0 1 recs fb fm ∧
      parentAt nodes1 0 = some none ∧
      ParentDec nodes1 ∧ WellParented nodes1 ∧
      (∀ i n p, nodes1.get? i = some n → n.parent = some p → p < fb + j + 1) ∧
      get_right_node_on_same_level nodes1 (some (fb + j)) =
        some (if j + 1 < fm then some (fb + j + 1) else none) := by
  obtain ⟨nj, hgj, hjl, hjr⟩ := hopen j le_rfl hjfm
  obtain ⟨nodes1, hadd, hlen1, hgt, hunch, hn1, hn2⟩ := add_empty_childs_spec hgj
  have hfmpos : 0 < fb + fm := by
    have := chainFrom_le recs 0 1 fb fm hchain
    omega
  have hxlt : fb + j < nodes.length := by omega
  have hpar : ∀ i, i < fb + fm → parentAt nodes1 i = parentAt nodes i := by
    intro i hi
    by_cases hij : i = fb + j
    · subst hij
      unfold parentAt
      rw [hgt, hgj]
      simp
    · exact (projections_eq (hunch i hij (by omega))).2.1
  have hlow : ∀ i, i < fb → nodes1.get? i = nodes.get? i := fun i hi =>
    hunch i (by omega) (by omega)
  have hchain1 : ChainFrom nodes1 0 1 recs fb fm :=
    chainFrom_stable hlow hpar recs 0 1 hchain
  have hroot1 : parentAt nodes1 0 = some none := (hpar 0 hfmpos).trans hroot
  have hpdec1 : ParentDec nodes1 := by
    intro i n p hg hp
    by_cases hij : i = fb + j
    · subst hij
      rw [hgt] at hg
      cases hg
      exact hdec _ _ _ hgj hp
    · by_cases hilt : i < nodes.length
      · rw [hunch i hij hilt] at hg
        exact hdec _ _ _ hg hp
      · have hi2 : i < nodes.length + 2 := by
          have := get?_length hg
          omega
        have hior : i = nodes.length ∨ i = nodes.length + 1 := by omega
        rcases hior with h1 | h1 <;> subst h1
        · rw [hn1] at hg
          cases hg
          cases hp
          omega
        · rw [hn2] at hg
          cases hg
          cases hp
          omega
  have hwp1 : WellParented nodes1 := by
    intro i n p hg hp
    by_cases hilt : i < nodes.length
    · have hnp : p < fb + j := by
        by_cases hij : i = fb + j
        · subst hij
          rw [hgt] at hg
          cases hg
          exact hplt _ _ _ hgj hp
        · rw [hunch i hij hilt] at hg
          exact hplt _ _ _ hg hp
      have hg0 : nodes.get? i = some n ∨
          (i = fb + j ∧ nodes.get? i = some nj ∧ n.parent = nj.parent) := by
        by_cases hij : i = fb + j
        · subst hij
          rw [hgt] at hg
          cases hg
          exact Or.inr ⟨rfl, hgj, rfl⟩
        · rw [hunch i hij hilt] at hg
          exact Or.inl hg
      have hex : ∃ n0, nodes.get? i = some n0 ∧ n0.parent = some p := by
        rcases hg0 with h1 | ⟨h1, h2, h3⟩
        · exact ⟨n, h1, hp⟩
        · exact ⟨nj, h2, by rw [← h3]; exact hp⟩
      obtain ⟨n0, hgn0, hpn0⟩ := hex
      obtain ⟨pn, aa, bb, hgp, hpl, hpr, hab, hor⟩ := hwp _ _ _ hgn0 hpn0
      refine ⟨pn, aa, bb, ?_, hpl, hpr, hab, hor⟩
      rw [hunch p (by omega) (by omega)]
      exact hgp
    · have hi2 : i < nodes.length + 2 := by
        have := get?_length hg
        omega
      have hior : i = nodes.length ∨ i = nodes.length + 1 := by omega
      have htg : nodes1.get? (fb + j) =
          some { nj with left_child := some nodes.length,
                         right_child := some (nodes.length + 1) } := hgt
      rcases hior with h1 | h1 <;> subst h1
      · rw [hn1] at hg
        cases hg
        cases hp
        exact ⟨_, nodes.length, nodes.length + 1, htg, rfl, rfl, by omega,
          Or.inl rfl⟩
      · rw [hn2] at hg
        cases hg
        cases hp
        exact ⟨_, nodes.length, nodes.length + 1, htg, rfl, rfl, by omega,
          Or.inr rfl⟩
  have hplt1 : ∀ i n p, nodes1.get? i = some n → n.parent = some p → p < fb + j + 1 := by
    intro i n p hg hp
    by_cases hij : i = fb + j
    · subst hij
      rw [hgt] at hg
      cases hg
      have := hplt _ _ _ hgj hp
      omega
    · by_cases hilt : i < nodes.length
      · rw [hunch i hij hilt] at hg
        have := hplt _ _ _ hg hp
        omega
      · have hi2 : i < nodes.length + 2 := by
          have := get?_length hg
          omega
        have hior : i = nodes.length ∨ i = nodes.length + 1 := by omega
        rcases hior with h1 | h1 <;> subst h1
        · rw [hn1] at hg; cases hg; cases hp; omega
        · rw [hn2] at hg; cases hg; cases hp; omega
  have hwalk := walk_chain recs nodes1 fb fm hchain1 hroot1 hpdec1 hwp1 j hjfm
  refine ⟨nodes1, hadd, by omega, hunch, ?_, ?_, ?_, ?_, ?_, ?_, ?_,
    hchain1, hroot1, hpdec1, hwp1, hplt1, hwalk⟩
  · unfold leftAt
    rw [hgt]
    simp [hlen]
  · unfold rightAt
    rw [hgt]
    simp [hlen]
  · unfold parentAt
    rw [hgt, hgj]
    simp
  · unfold validAt
    rw [hgt, hgj]
    simp
  · unfold valueAt
    rw [hgt, hgj]
    simp
  · rw [← hlen]
    exact hn1
  · rw [← hlen]
    exact hn2

/-- Full run of a grow loop from frontier position `j` to the end of the
level: every remaining open node receives its two children, appended in
left-to-right order after the block anchored at position `a`. -/
theorem growLevelFrom_spec : ∀ (rem : Nat) (nodes : List HuffmanNode)
    (recs : List LevelRec) (fb fm a j fuel : Nat),
    fm - j = rem + 1 → a ≤ j →
    ChainFrom nodes 0 1 recs fb fm →
    parentAt nodes 0 = some none →
    ParentDec nodes → WellParented nodes →
    nodes.length = fb + fm + 2 * (j - a) →
    (∀ t, j ≤ t → t < fm → ∃ n, nodes.get? (fb + t) = some n ∧
      n.left_child = none ∧ n.right_child = none) →
    (∀ i n p, nodes.get? i = some n → n.parent = some p → p < fb + j) →
    fm - j ≤ fuel →
    ∃ nodesF, growLevelFrom fuel nodes (some (fb + j)) = some nodesF ∧
      nodesF.length = fb + fm + 2 * (fm - a) ∧
      (∀ i, i < fb + j ∨ (fb + fm ≤ i ∧ i < nodes.length) →
        nodesF.get? i = nodes.get? i) ∧
      (∀ t, j ≤ t → t < fm →
        leftAt nodesF (fb + t) = some (some (fb + fm + 2 * (t - a))) ∧
        rightAt nodesF (fb + t) = some (some (fb + fm + 2 * (t - a) + 1)) ∧
        parentAt nodesF (fb + t) = parentAt nodes (fb + t) ∧
        validAt nodesF (fb + t) = validAt nodes (fb + t) ∧
        valueAt nodesF (fb + t) = valueAt nodes (fb + t)) ∧
      (∀ q, 2 * (j - a) ≤ q → q < 2 * (fm - a) →
        nodesF.get? (fb + fm + q) = some (HuffmanNode.new_with_parent (fb + a + q / 2))) ∧
      ChainFrom nodesF 0 1 recs fb fm ∧
      parentAt nodesF 0 = some none ∧
      ParentDec nodesF ∧ WellParented nodesF ∧
      (∀ i n p, nodesF.get? i = some n → n.parent = some p → p < fb + fm) := by
  intro rem
  induction rem with
  | zero =>
    intro nodes recs fb fm a j fuel hrem haj hchain hroot hdec hwp hlen hopen hplt hfuel
    have hjfm : j < fm := by omega
    obtain ⟨nodes1, hadd, hlen1, hunch, hL, hR, hP, hV, hVal, hq1, hq2,
      hchain1, hroot1, hpdec1, hwp1, hplt1, hwalk⟩ :=
      grow_one_step hchain hroot hdec hwp hlen haj hjfm hopen hplt
    match fuel, hfuel with
    | 0, h => exact absurd h (by omega)
    | fuel + 1, _ =>
    rw [if_neg (by omega)] at hwalk
    refine ⟨nodes1, ?_, by omega, ?_, ?_, ?_, hchain1, hroot1, hpdec1, hwp1, ?_⟩
    · simp only [growLevelFrom, hadd, hwalk]
    · intro i hi
      rcases hi with hi | ⟨hi1, hi2⟩
      · exact hunch i (by omega) (by omega)
      · exact hunch i (by omega) hi2
    · intro t ht1 ht2
      have htj : t = j := by omega
      subst htj
      exact ⟨hL, hR, hP, hV, hVal⟩
    · intro q hql hqh
      have hqor : q = 2 * (j - a) ∨ q = 2 * (j - a) + 1 := by omega
      rcases hqor with h1 | h1 <;> subst h1
      · rw [show fb + a + 2 * (j - a) / 2 = fb + j from by omega]
        exact hq1
      · rw [show fb + a + (2 * (j - a) + 1) / 2 = fb + j from by omega]
        exact hq2
    · intro i n p hg hp
      have := hplt1 i n p hg hp
      omega
  | succ rem ih =>
    intro nodes recs fb fm a j fuel hrem haj hchain hroot hdec hwp hlen hopen hplt hfuel
    have hjfm : j < fm := by omega
    obtain ⟨nodes1, hadd, hlen1, hunch, hL, hR, hP, hV, hVal, hq1, hq2,
      hchain1, hroot1, hpdec1, hwp1, hplt1, hwalk⟩ :=
      grow_one_step hchain hroot hdec hwp hlen haj hjfm hopen hplt
    match fuel, hfuel with
    | 0, h => exact absurd h (by omega)
    | fuel + 1, _ =>
    rw [if_pos (by omega)] at hwalk
    have hopen1 : ∀ t, j + 1 ≤ t → t < fm → ∃ n, nodes1.get? (fb + t) = some n ∧
        n.left_child = none ∧ n.right_child = none := by
      intro t ht1 ht2
      obtain ⟨n, hgn, h1, h2⟩ := hopen t (by omega) ht2
      refine ⟨n, ?_, h1, h2⟩
      rw [hunch (fb + t) (by omega) (by omega)]
      exact hgn
    obtain ⟨nodesF, hrun, hlenF, hunchF, htF, hqF, hchainF, hrootF, hpdecF, hwpF, hpltF⟩ :=
      ih nodes1 recs fb fm a (j + 1) fuel (by omega) (by omega) hchain1 hroot1 hpdec1
        hwp1 (by omega) hopen1 hplt1 (by omega)
    refine ⟨nodesF, ?_, by omega, ?_, ?_, ?_, hchainF, hrootF, hpdecF, hwpF, hpltF⟩
    · simp only [growLevelFrom, hadd, hwalk]
      exact hrun
    · intro i hi
      have h1 : nodesF.get? i = nodes1.get? i := by
        rcases hi with hi | ⟨hi1, hi2⟩
        · exact hunchF i (Or.inl (by omega))
        · exact hunchF i (Or.inr ⟨by omega, by omega⟩)
      rw [h1]
      rcases hi with hi | ⟨hi1, hi2⟩
      · exact hunch i (by omega) (by omega)
      · exact hunch i (by omega) hi2
    · intro t ht1 ht2
      by_cases htj : t = j
      · subst htj
        have hu : nodesF.get? (fb + t) = nodes1.get? (fb + t) :=
          hunchF _ (Or.inl (by omega))
        obtain ⟨e1, e2, e3, e4, e5⟩ := projections_eq hu
        exact ⟨e3.trans hL, e4.trans hR, e2.trans hP, e5.trans hV, e1.trans hVal⟩
      · have h := htF t (by omega) ht2
        have hu : nodes1.get? (fb + t) = nodes.get? (fb + t) :=
          hunch _ (by omega) (by omega)
        obtain ⟨e1, e2, e3, e4, e5⟩ := projections_eq hu
        exact ⟨h.1, h.2.1, h.2.2.1.trans e2, h.2.2.2.1.trans e5, h.2.2.2.2.trans e1⟩
    · intro q hql hqh
      by_cases hq : 2 * (j + 1 - a) ≤ q
      · exact hqF q hq hqh
      · have hu : nodesF.get? (fb + fm + q) = nodes1.get? (fb + fm + q) :=
          hunchF _ (Or.inr ⟨by omega, by omega⟩)
        have hqor : q = 2 * (j - a) ∨ q = 2 * (j - a) + 1 := by omega
        rcases hqor with h1 | h1 <;> subst h1
        · rw [hu, show fb + a + 2 * (j - a) / 2 = fb + j from by omega]
          exact hq1
        · rw [hu, show fb + a + (2 * (j - a) + 1) / 2 = fb + j from by omega]
          exact hq2

theorem parentDec_of_pointwise {n0 n1 : List HuffmanNode}
    (hpar : ∀ i, parentAt n1 i = parentAt n0 i) (h : ParentDec n0) : ParentDec n1 := by
  intro i n p hg hp
  have h1 : parentAt n0 i = some (some p) := by
    rw [← hpar i]
    unfold parentAt
    rw [hg]
    simp [hp]
  obtain ⟨m, hgm, hpm⟩ := projAt_some h1
  exact h _ _ _ hgm hpm

theorem wellParented_of_pointwise {n0 n1 : List HuffmanNode}
    (hpar : ∀ i, parentAt n1 i = parentAt n0 i)
    (hl : ∀ i, leftAt n1 i = leftAt n0 i)
    (hr : ∀ i, rightAt n1 i = rightAt n0 i)
    (h : WellParented n0) : WellParented n1 := by
  intro i n p hg hp
  have h1 : parentAt n0 i = some (some p) := by
    rw [← hpar i]
    unfold parentAt
    rw [hg]
    simp [hp]
  obtain ⟨m, hgm, hpm⟩ := projAt_some h1
  obtain ⟨pn, a, b, hgp, hpl, hpr, hab, hor⟩ := h _ _ _ hgm hpm
  have h2 : leftAt n1 p = some (some a) := by
    rw [hl p]
    unfold leftAt
    rw [hgp]
    simp [hpl]
  have h3 : rightAt n1 p = some (some b) := by
    rw [hr p]
    unfold rightAt
    rw [hgp]
    simp [hpr]
  obtain ⟨pn1, hgp1, hl1, hr1⟩ := fields_some h2 h3
  exact ⟨pn1, a, b, hgp1, hl1, hr1, hab, hor⟩

theorem parentBound_of_pointwise {n0 n1 : List HuffmanNode} {c : Nat}
    (hpar : ∀ i, parentAt n1 i = parentAt n0 i)
    (h : ∀ i n p, n0.get? i = some n → n.parent = some p → p < c) :
    ∀ i n p, n1.get? i = some n → n.parent = some p → p < c := by
  intro i n p hg hp
  have h1 : parentAt n0 i = some (some p) := by
    rw [← hpar i]
    unfold parentAt
    rw [hg]
    simp [hp]
  obtain ⟨m, hgm, hpm⟩ := projAt_some h1
  exact h _ _ _ hgm hpm

/-- Full run of the symbol-assignment loop of `construct_tree` over an open
frontier: the first `syms.length` frontier nodes become valid leaves carrying
the symbols in order, and the leftmost pointer moves past them (or to `None`
at the end of the level). -/
theorem assignSymbols_spec : ∀ (syms : List Nat) (nodes : List HuffmanNode)
    (recs : List LevelRec) (fb fm j : Nat) (lm : Option Nat),
    ChainFrom nodes 0 1 recs fb fm →
    parentAt nodes 0 = some none →
    ParentDec nodes → WellParented nodes →
    nodes.length = fb + fm →
    j + syms.length ≤ fm →
    lm = (if j < fm then some (fb + j) else none) →
    ∃ nodesA, assignSymbols nodes lm syms =
        some (nodesA,
          if j + syms.length < fm then some (fb + (j + syms.length)) else none) ∧
      nodesA.length = fb + fm ∧
      (∀ i, parentAt nodesA i = parentAt nodes i ∧ leftAt nodesA i = leftAt nodes i ∧
        rightAt nodesA i = rightAt nodes i) ∧
      (∀ i, (i < fb + j ∨ fb + j + syms.length ≤ i) → nodesA.get? i = nodes.get? i) ∧
      (∀ k, k < syms.length → ∃ n, nodes.get? (fb + j + k) = some n ∧
        nodesA.get? (fb + j + k) =
          some { n with value := syms.getD k 0, valid_code := true }) ∧
      ChainFrom nodesA 0 1 recs fb fm ∧ parentAt nodesA 0 = some none ∧
      ParentDec nodesA ∧ WellParented nodesA := by
  intro syms
  induction syms with
  | nil =>
    intro nodes recs fb fm j lm hchain hroot hdec hwp hlen hfit hlm
    refine ⟨nodes, ?_, hlen, fun i => ⟨rfl, rfl, rfl⟩, fun i _ => rfl,
      fun k hk => absurd hk (by simp), hchain, hroot, hdec, hwp⟩
    simp only [assignSymbols, List.length_nil, Nat.add_zero]
    rw [hlm]
  | cons s rest ih =>
    intro nodes recs fb fm j lm hchain hroot hdec hwp hlen hfit hlm
    have hjfm : j < fm := by
      simp only [List.length_cons] at hfit
      omega
    rw [if_pos hjfm] at hlm
    subst hlm
    cases hg : nodes.get? (fb + j) with
    | none => exact absurd (List.get?_eq_none.mp hg) (by omega)
    | some n =>
    have hlen1 : (nodes.set (fb + j) { n with value := s, valid_code := true }).length =
        fb + fm := by
      simp [hlen]
    have hunch1 : ∀ i, i ≠ fb + j →
        (nodes.set (fb + j) { n with value := s, valid_code := true }).get? i =
          nodes.get? i := by
      intro i hi
      exact List.get?_set_ne _ _ (fun h => hi h.symm)
    have hset1 : (nodes.set (fb + j) { n with value := s, valid_code := true }).get?
        (fb + j) = some { n with value := s, valid_code := true } :=
      get?_set_self _ (by omega)
    have hpw : ∀ i, parentAt (nodes.set (fb + j)
          { n with value := s, valid_code := true }) i = parentAt nodes i ∧
        leftAt (nodes.set (fb + j)
          { n with value := s, valid_code := true }) i = leftAt nodes i ∧
        rightAt (nodes.set (fb + j)
          { n with value := s, valid_code := true }) i = rightAt nodes i := by
      intro i
      by_cases hij : i = fb + j
      · subst hij
        unfold parentAt leftAt rightAt
        rw [hset1, hg]
        exact ⟨rfl, rfl, rfl⟩
      · obtain ⟨e1, e2, e3, e4, e5⟩ := projections_eq (hunch1 i hij)
        exact ⟨e2, e3, e4⟩
    have hchain1 : ChainFrom (nodes.set (fb + j)
        { n with value := s, valid_code := true }) 0 1 recs fb fm :=
      chainFrom_stable (fun i hi => hunch1 i (by omega)) (fun i _ => (hpw i).1)
        recs 0 1 hchain
    have hroot1 : parentAt (nodes.set (fb + j)
        { n with value := s, valid_code := true }) 0 = some none :=
      (hpw 0).1.trans hroot
    have hdec1 : ParentDec (nodes.set (fb + j)
        { n with value := s, valid_code := true }) :=
      parentDec_of_pointwise (fun i => (hpw i).1) hdec
    have hwp1 : WellParented (nodes.set (fb + j)
        { n with value := s, valid_code := true }) :=
      wellParented_of_pointwise (fun i => (hpw i).1) (fun i => (hpw i).2.1)
        (fun i => (hpw i).2.2) hwp
    have hwalk := walk_chain recs _ fb fm hchain1 hroot1 hdec1 hwp1 j hjfm
    obtain ⟨nodesA, hrun, hlenA, hpwA, hunchA, hkA, hchainA, hrootA, hdecA, hwpA⟩ :=
      ih (nodes.set (fb + j) { n with value := s, valid_code := true }) recs fb fm
        (j + 1) (if j + 1 < fm then some (fb + j + 1) else none)
        hchain1 hroot1 hdec1 hwp1 hlen1
        (by simp only [List.length_cons] at hfit; omega) rfl
    refine ⟨nodesA, ?_, hlenA, ?_, ?_, ?_, hchainA, hrootA, hdecA, hwpA⟩
    · simp only [assignSymbols, hg]
      rw [hwalk]
      dsimp only
      rw [hrun]
      simp only [List.length_cons]
      rw [show j + (rest.length + 1) = j + 1 + rest.length from by omega]
    · intro i
      obtain ⟨p1, p2, p3⟩ := hpwA i
      obtain ⟨q1, q2, q3⟩ := hpw i
      exact ⟨p1.trans q1, p2.trans q2, p3.trans q3⟩
    · intro i hi
      simp only [List.length_cons] at hi
      have h1 : nodesA.get? i = (nodes.set (fb + j)
          { n with value := s, valid_code := true }).get? i :=
        hunchA i (by omega)
      exact h1.trans (hunch1 i (by omega))
    · intro k hk
      match k, hk with
      | 0, _ =>
        refine ⟨n, ?_, ?_⟩
        · rw [Nat.add_zero]
          exact hg
        · rw [Nat.add_zero]
          have h1 : nodesA.get? (fb + j) = (nodes.set (fb + j)
              { n with value := s, valid_code := true }).get? (fb + j) :=
            hunchA (fb + j) (Or.inl (by omega))
          exact h1.trans hset1
      | k' + 1, hk =>
        have hklt : k' < rest.length := by
          simp only [List.length_cons] at hk
          omega
        obtain ⟨m, hgm, hsm⟩ := hkA k' hklt
        have hidx : fb + j + (k' + 1) = fb + (j + 1) + k' := by omega
        refine ⟨m, ?_, ?_⟩
        · rw [hidx, ← hunch1 (fb + (j + 1) + k') (by omega)]
          exact hgm
        · rw [hidx]
          exact hsm

/-- `growLevelFrom_spec` extended to the boundary case `j = fm`, with the
leftmost pointer given in the `if` shape the sibling walk produces. -/
theorem growLevelFrom_run {nodes : List HuffmanNode} {recs : List LevelRec}
    {fb fm a j fuel : Nat}
    (hchain : ChainFrom nodes 0 1 recs fb fm)
    (hroot : parentAt nodes 0 = some none)
    (hdec : ParentDec nodes) (hwp : WellParented nodes)
    (hlen : nodes.length = fb + fm + 2 * (j - a))
    (haj : a ≤ j) (hjfm : j ≤ fm)
    (hopen : ∀ t, j ≤ t → t < fm → ∃ n, nodes.get? (fb + t) = some n ∧
      n.left_child = none ∧ n.right_child = none)
    (hplt : ∀ i n p, nodes.get? i = some n → n.parent = some p → p < fb + j)
    (hfuel : fm - j ≤ fuel) :
    ∃ nodesF, growLevelFrom fuel nodes
        (if j < fm then some (fb + j) else none) = some nodesF ∧
      nodesF.length = fb + fm + 2 * (fm - a) ∧
      (∀ i, i < fb + j ∨ (fb + fm ≤ i ∧ i < nodes.length) →
        nodesF.get? i = nodes.get? i) ∧
      (∀ t, j ≤ t → t < fm →
        leftAt nodesF (fb + t) = some (some (fb + fm + 2 * (t - a))) ∧
        rightAt nodesF (fb + t) = some (some (fb + fm + 2 * (t - a) + 1)) ∧
        parentAt nodesF (fb + t) = parentAt nodes (fb + t) ∧
        validAt nodesF (fb + t) = validAt nodes (fb + t) ∧
        valueAt nodesF (fb + t) = valueAt nodes (fb + t)) ∧
      (∀ q, 2 * (j - a) ≤ q → q < 2 * (fm - a) →
        nodesF.get? (fb + fm + q) = some (HuffmanNode.new_with_parent (fb + a + q / 2))) ∧
      ChainFrom nodesF 0 1 recs fb fm ∧
      parentAt nodesF 0 = some none ∧
      ParentDec nodesF ∧ WellParented nodesF ∧
      (∀ i n p, nodesF.get? i = some n → n.parent = some p → p < fb + fm) := by
  by_cases hj : j < fm
  · rw [if_pos hj]
    exact growLevelFrom_spec (fm - j - 1) nodes recs fb fm a j fuel (by omega) haj
      hchain hroot hdec hwp hlen hopen hplt hfuel
  · rw [if_neg hj]
    have hjeq : j = fm := by omega
    subst hjeq
    refine ⟨nodes, ?_, by omega, fun i _ => rfl, ?_, ?_, hchain, hroot, hdec, hwp, hplt⟩
    · cases fuel <;> rfl
    · intro t ht1 ht2
      exact absurd ht2 (by omega)
    · intro q hq1 hq2
      exact absurd hq2 (by omega)

/-- One iteration of the level loop of `construct_tree` on a well-formed
arena whose frontier strictly absorbs the slot: the level completes, the
leftmost pointer lands on the first node of the next level, and the invariant
descends with the level's record appended to the chain. -/
theorem constructLevel_spec {nodes : List HuffmanNode} {recs : List LevelRec}
    {fb fm : Nat} {slot : List Nat}
    (hchain : ChainFrom nodes 0 1 recs fb fm)
    (hroot : parentAt nodes 0 = some none)
    (hdec : ParentDec nodes) (hwp : WellParented nodes)
    (hlen : nodes.length = fb + fm)
    (hopen : ∀ k, k < fm → leftAt nodes (fb + k) = some none ∧
      rightAt nodes (fb + k) = some none ∧ validAt nodes (fb + k) = some false)
    (hpb : ∀ i n p, nodes.get? i = some n → n.parent = some p → p < fb)
    (hslot : slot.length < fm) (hs256 : slot.length < 256) :
    ∃ nodesL, constructLevel nodes (some fb) slot = some (nodesL, some (fb + fm)) ∧
      nodesL.length = (fb + fm) + 2 * (fm - slot.length) ∧
      ChainFrom nodesL 0 1 (recs ++ [⟨fb, fm, slot.length, slot⟩]) (fb + fm)
        (2 * (fm - slot.length)) ∧
      parentAt nodesL 0 = some none ∧
      ParentDec nodesL ∧ WellParented nodesL ∧
      (∀ k, k < 2 * (fm - slot.length) → leftAt nodesL (fb + fm + k) = some none ∧
        rightAt nodesL (fb + fm + k) = some none ∧
        validAt nodesL (fb + fm + k) = some false) ∧
      (∀ i n p, nodesL.get? i = some n → n.parent = some p → p < fb + fm) := by
  rcases Nat.eq_zero_or_pos slot.length with hc0 | hcpos
  · -- Empty slot: the whole level grows and the new frontier is its children.
    have hslotnil : slot = [] := List.length_eq_zero.mp hc0
    subst hslotnil
    have hfmpos : 0 < fm := by simp only [List.length_nil] at hslot; omega
    have hopen' : ∀ t, 0 ≤ t → t < fm → ∃ n, nodes.get? (fb + t) = some n ∧
        n.left_child = none ∧ n.right_child = none := by
      intro t _ ht
      obtain ⟨hl, hr, hv⟩ := hopen t ht
      obtain ⟨n, hg, h1, h2⟩ := fields_some hl hr
      exact ⟨n, hg, h1, h2⟩
    obtain ⟨nodesF, hrunG, hlenF, hunchF, htF, hqF, hchainF, hrootF, hdecF, hwpF, hpltF⟩ :=
      @growLevelFrom_run nodes recs fb fm 0 0 (nodes.length + 1) hchain hroot hdec
        hwp (by omega) le_rfl (by omega) hopen'
        (by intro i n p hg hp; have := hpb i n p hg hp; omega) (by omega)
    rw [if_pos hfmpos] at hrunG
    simp only [Nat.add_zero] at hrunG
    have h0 := htF 0 le_rfl hfmpos
    have h0l := h0.1
    simp only [Nat.add_zero, Nat.sub_self, Nat.mul_zero] at h0l
    obtain ⟨lmn, hglm, hlc⟩ := projAt_some h0l
    refine ⟨nodesF, ?_, ?_, ?_, hrootF, hdecF, hwpF, ?_, hpltF⟩
    · simp only [constructLevel]
      rw [if_pos (show (List.length ([] : List Nat)) % 256 = 0 from rfl)]
      rw [hrunG]
      dsimp only
      rw [hglm]
      dsimp only
      rw [hlc]
    · simp only [List.length_nil, Nat.sub_zero]
      simp only [Nat.sub_zero] at hlenF
      exact hlenF
    · refine (chainFrom_append recs ⟨fb, fm, List.length [], []⟩ 0 1 _ _).mpr
        ⟨hchainF, ?_, rfl, rfl⟩
      unfold RecClause
      dsimp only
      refine ⟨rfl, by simp only [List.length_nil]; omega, ?_, ?_, ?_⟩
      · intro k hk
        exact absurd hk (by simp)
      · intro k hk1 hk2
        have h := htF k (by omega) hk2
        refine ⟨h.1, h.2.1, ?_⟩
        rw [h.2.2.2.1]
        exact (hopen k hk2).2.2
      · intro q hq
        simp only [List.length_nil, Nat.sub_zero] at hq
        have hgot := hqF q (by omega) (by omega)
        unfold parentAt
        rw [hgot]
        rfl
    · intro k hk
      simp only [List.length_nil, Nat.sub_zero] at hk
      have hgot := hqF k (by omega) (by omega)
      unfold leftAt rightAt validAt
      rw [hgot]
      exact ⟨rfl, rfl, rfl⟩
  · -- Non-empty slot: assign the symbols, then grow the remaining nodes.
    have hcne : ¬ slot.length % 256 = 0 := by
      rw [Nat.mod_eq_of_lt hs256]
      omega
    obtain ⟨nodesA, hrunA, hlenA, hpwA, hunchA, hkA, hchainA, hrootA, hdecA, hwpA⟩ :=
      assignSymbols_spec slot nodes recs fb fm 0 (some fb) hchain hroot hdec hwp hlen
        (by omega) (by rw [if_pos (show 0 < fm by omega)]; rfl)
    rw [if_pos (show 0 + slot.length < fm by omega)] at hrunA
    simp only [Nat.zero_add] at hrunA
    have hpbA : ∀ i n p, nodesA.get? i = some n → n.parent = some p → p < fb :=
      parentBound_of_pointwise (fun i => (hpwA i).1) hpb
    have hopenA : ∀ t, slot.length ≤ t → t < fm → ∃ n, nodesA.get? (fb + t) = some n ∧
        n.left_child = none ∧ n.right_child = none := by
      intro t ht1 ht2
      obtain ⟨hl, hr, hv⟩ := hopen t ht2
      obtain ⟨n, hg, h1, h2⟩ := fields_some hl hr
      refine ⟨n, ?_, h1, h2⟩
      rw [hunchA (fb + t) (Or.inr (by omega))]
      exact hg
    obtain ⟨nodes2, hadd, hlen2, hunch2, hL2, hR2, hP2, hV2, hVal2, hq1, hq2,
      hchain2, hroot2, hdec2, hwp2, hplt2, hwalk2⟩ :=
      @grow_one_step nodesA recs fb fm slot.length slot.length hchainA hrootA hdecA hwpA
        (by omega) le_rfl (by omega) hopenA
        (by intro i n p hg hp; have := hpbA i n p hg hp; omega)
    have hopen2 : ∀ t, slot.length + 1 ≤ t → t < fm →
        ∃ n, nodes2.get? (fb + t) = some n ∧
          n.left_child = none ∧ n.right_child = none := by
      intro t ht1 ht2
      obtain ⟨n, hg, h1, h2⟩ := hopenA t (by omega) ht2
      refine ⟨n, ?_, h1, h2⟩
      rw [hunch2 (fb + t) (by omega) (by omega)]
      exact hg
    obtain ⟨nodes3, hrunG, hlenF, hunchF, htF, hqF, hchainF, hrootF, hdecF, hwpF, hpltF⟩ :=
      @growLevelFrom_run nodes2 recs fb fm slot.length (slot.length + 1)
        (nodes2.length + 1) hchain2 hroot2 hdec2 hwp2 (by omega) (by omega)
        (by omega) hopen2
        (by intro i n p hg hp; have := hplt2 i n p hg hp; omega) (by omega)
    rw [show fb + (slot.length + 1) = fb + slot.length + 1 from rfl] at hrunG
    have hL2' := hL2
    rw [show fb + fm + 2 * (slot.length - slot.length) = fb + fm from by omega] at hL2'
    obtain ⟨lmn, hglm, hlc⟩ := projAt_some hL2'
    refine ⟨nodes3, ?_, ?_, ?_, hrootF, hdecF, hwpF, ?_, hpltF⟩
    · simp only [constructLevel]
      rw [if_neg hcne, hrunA]
      dsimp only
      rw [hadd]
      dsimp only
      rw [hwalk2]
      dsimp only
      rw [hglm]
      dsimp only
      rw [hrunG]
      dsimp only
      rw [hlc]
    · exact hlenF
    · refine (chainFrom_append recs ⟨fb, fm, slot.length, slot⟩ 0 1 _ _).mpr
        ⟨hchainF, ?_, rfl, rfl⟩
      unfold RecClause
      dsimp only
      refine ⟨rfl, by omega, ?_, ?_, ?_⟩
      · intro k hk
        obtain ⟨n, hgn, hsn⟩ := hkA k hk
        simp only [Nat.add_zero] at hgn hsn
        have hg3 : nodes3.get? (fb + k) = nodesA.get? (fb + k) := by
          rw [hunchF (fb + k) (Or.inl (by omega)), hunch2 (fb + k) (by omega) (by omega)]
        have hvn : n.left_child = none ∧ n.right_child = none := by
          obtain ⟨hl, hr, hv⟩ := hopen k (by omega)
          obtain ⟨n0, hg0, h1, h2⟩ := fields_some hl hr
          rw [hg0] at hgn
          cases hgn
          exact ⟨h1, h2⟩
        have hg3' : nodes3.get? (fb + k) =
            some { n with value := slot.getD k 0, valid_code := true } := hg3.trans hsn
        refine ⟨?_, ?_, ?_, ?_⟩
        · unfold valueAt
          rw [hg3']
          rfl
        · unfold validAt
          rw [hg3']
          rfl
        · unfold leftAt
          rw [hg3']
          simp [hvn.1]
        · unfold rightAt
          rw [hg3']
          simp [hvn.2]
      · intro k hk1 hk2
        by_cases hkc : k = slot.length
        · subst hkc
          have hg3 : nodes3.get? (fb + slot.length) = nodes2.get? (fb + slot.length) :=
            hunchF _ (Or.inl (by omega))
          obtain ⟨e1, e2, e3, e4, e5⟩ := projections_eq hg3
          have hva : validAt nodesA (fb + slot.length) =
              validAt nodes (fb + slot.length) :=
            (projections_eq (hunchA (fb + slot.length) (Or.inr (by omega)))).2.2.2.2
          refine ⟨?_, ?_, ?_⟩
          · rw [e3, hL2]
          · rw [e4, hR2]
          · rw [e5, hV2, hva]
            exact (hopen slot.length (by omega)).2.2
        · have h := htF k (by omega) hk2
          refine ⟨h.1, h.2.1, ?_⟩
          have hva2 : validAt nodes2 (fb + k) = validAt nodesA (fb + k) :=
            (projections_eq (hunch2 (fb + k) (by omega) (by omega))).2.2.2.2
          have hva : validAt nodesA (fb + k) = validAt nodes (fb + k) :=
            (projections_eq (hunchA (fb + k) (Or.inr (by omega)))).2.2.2.2
          rw [h.2.2.2.1, hva2, hva]
          exact (hopen k hk2).2.2
      · intro q hq
        by_cases hq2' : 2 ≤ q
        · have hgot := hqF q (by omega) (by omega)
          unfold parentAt
          rw [hgot]
          rfl
        · have hu : nodes3.get? (fb + fm + q) = nodes2.get? (fb + fm + q) :=
            hunchF _ (Or.inr ⟨by omega, by omega⟩)
          have hqor : q = 0 ∨ q = 1 := by omega
          unfold parentAt
          rcases hqor with h1 | h1 <;> subst h1
          · rw [hu, show fb + fm + 0 = fb + fm + 2 * (slot.length - slot.length)
              from by omega, hq1]
            rfl
          · rw [hu, show fb + fm + 1 = fb + fm + 2 * (slot.length - slot.length) + 1
              from by omega, hq2]
            rfl
    · intro k hk
      have hrec : ∃ x, nodes3.get? (fb + fm + k) =
          some (HuffmanNode.new_with_parent x) := by
        by_cases h2 : 2 ≤ k
        · exact ⟨_, hqF k (by omega) (by omega)⟩
        · have hu : nodes3.get? (fb + fm + k) = nodes2.get? (fb + fm + k) :=
            hunchF _ (Or.inr ⟨by omega, by omega⟩)
          have hqor : k = 0 ∨ k = 1 := by omega
          rcases hqor with h1 | h1 <;> subst h1
          · refine ⟨fb + slot.length, ?_⟩
            rw [hu, show fb + fm + 0 = fb + fm + 2 * (slot.length - slot.length)
              from by omega]
            exact hq1
          · refine ⟨fb + slot.length, ?_⟩
            rw [hu, show fb + fm + 1 = fb + fm + 2 * (slot.length - slot.length) + 1
              from by omega]
            exact hq2
      obtain ⟨x, hx⟩ := hrec
      unfold leftAt rightAt validAt
      rw [hx]
      exact ⟨rfl, rfl, rfl⟩

/-- The level loop of `construct_tree` over a slot list that strictly fits
the frontier at every level: the loop completes with the chain of all level
records appended. -/
theorem constructLoop_spec : ∀ (slots : List (List Nat)) (nodes : List HuffmanNode)
    (recs : List LevelRec) (fb fm : Nat),
    ChainFrom nodes 0 1 recs fb fm →
    parentAt nodes 0 = some none →
    ParentDec nodes → WellParented nodes →
    nodes.length = fb + fm →
    (∀ k, k < fm → leftAt nodes (fb + k) = some none ∧
      rightAt nodes (fb + k) = some none ∧ validAt nodes (fb + k) = some false) →
    (∀ i n p, nodes.get? i = some n → n.parent = some p → p < fb) →
    FitsFrontier fm slots →
    (∀ s, s ∈ slots → s.length < 256) →
    ∃ nodesL, constructLoop slots nodes (some fb) =
        some (nodesL, some (growBase fb fm slots)) ∧
      nodesL.length = growBase fb fm slots + growSize fm slots ∧
      ChainFrom nodesL 0 1 (recs ++ mkRecs fb fm slots) (growBase fb fm slots)
        (growSize fm slots) ∧
      parentAt nodesL 0 = some none ∧
      ParentDec nodesL ∧ WellParented nodesL ∧
      (∀ k, k < growSize fm slots →
        leftAt nodesL (growBase fb fm slots + k) = some none ∧
        rightAt nodesL (growBase fb fm slots + k) = some none ∧
        validAt nodesL (growBase fb fm slots + k) = some false) ∧
      (∀ i n p, nodesL.get? i = some n → n.parent = some p →
        p < growBase fb fm slots) := by
  intro slots
  induction slots with
  | nil =>
    intro nodes recs fb fm hchain hroot hdec hwp hlen hopen hpb hfit h256
    refine ⟨nodes, rfl, hlen, ?_, hroot, hdec, hwp, hopen, hpb⟩
    rw [show recs ++ mkRecs fb fm [] = recs from by simp [mkRecs]]
    exact hchain
  | cons s rest ih =>
    intro nodes recs fb fm hchain hroot hdec hwp hlen hopen hpb hfit h256
    obtain ⟨hs, hfit2⟩ := hfit
    have hs256 : s.length < 256 := h256 s (by simp)
    obtain ⟨nodesL1, hrun1, hlen1, hchain1, hroot1, hdec1, hwp1, hopen1, hpb1⟩ :=
      constructLevel_spec hchain hroot hdec hwp hlen hopen hpb hs hs256
    obtain ⟨nodesL, hrun, hlenL, hchainL, hrootL, hdecL, hwpL, hopenL, hpbL⟩ :=
      ih nodesL1 (recs ++ [⟨fb, fm, s.length, s⟩]) (fb + fm) (2 * (fm - s.length))
        hchain1 hroot1 hdec1 hwp1 hlen1 hopen1 hpb1 hfit2
        (fun x hx => h256 x (List.mem_cons_of_mem s hx))
    refine ⟨nodesL, ?_, hlenL, ?_, hrootL, hdecL, hwpL, hopenL, hpbL⟩
    · simp only [constructLoop]
      rw [hrun1]
      dsimp only
      rw [hrun]
      rfl
    · rw [show recs ++ mkRecs fb fm (s :: rest) =
        (recs ++ [⟨fb, fm, s.length, s⟩]) ++
          mkRecs (fb + fm) (2 * (fm - s.length)) rest from by simp [mkRecs]]
      exact hchainL

/-- `HuffmanTree::new` on a strictly fitting table: the framing builds the
three-node initial arena, the loop completes, and the result is the full
chain of level records over an all-open final frontier. -/
theorem new_spec {t : HuffmanTable}
    (hfit : FitsFrontier 2 t) (h256 : ∀ s, s ∈ t → s.length < 256) :
    ∃ tree, new t = some tree ∧
      tree.nodes.length = growBase 1 2 t + growSize 2 t ∧
      ChainFrom tree.nodes 0 1 (mkRecs 0 1 ([] :: t)) (growBase 1 2 t)
        (growSize 2 t) ∧
      parentAt tree.nodes 0 = some none ∧
      ParentDec tree.nodes ∧ WellParented tree.nodes ∧
      (∀ k, k < growSize 2 t →
        leftAt tree.nodes (growBase 1 2 t + k) = some none ∧
        rightAt tree.nodes (growBase 1 2 t + k) = some none ∧
        validAt tree.nodes (growBase 1 2 t + k) = some false) := by
  have hchain0 : ChainFrom initialArena 0 1 [⟨0, 1, 0, []⟩] 1 2 := by
    refine ⟨rfl, rfl, ⟨rfl, by decide, ?_, ?_, ?_⟩, rfl, rfl⟩
    · intro k hk
      exact absurd (show k < 0 from hk) (Nat.not_lt_zero k)
    · intro k hk1 hk2
      have hk2' : k < 1 := hk2
      have hk0 : k = 0 := by omega
      subst hk0
      exact ⟨rfl, rfl, rfl⟩
    · intro j hj
      have hj' : j < 2 := hj
      have : j = 0 ∨ j = 1 := by omega
      rcases this with h | h <;> subst h
      · exact rfl
      · exact rfl
  have hroot0 : parentAt initialArena 0 = some none := rfl
  have hlen0 : initialArena.length = 1 + 2 := rfl
  have hdec0 : ParentDec initialArena := by
    intro i n p hg hp
    have hi : i < 3 := get?_length hg
    interval_cases i
    · have hg' : (some (⟨0, none, some 1, some 2, false⟩ : HuffmanNode) :
          Option HuffmanNode) = some n := hg
      cases hg'
      cases hp
    · have hg' : (some (⟨0, some 0, none, none, false⟩ : HuffmanNode) :
          Option HuffmanNode) = some n := hg
      cases hg'
      cases hp
      omega
    · have hg' : (some (⟨0, some 0, none, none, false⟩ : HuffmanNode) :
          Option HuffmanNode) = some n := hg
      cases hg'
      cases hp
      omega
  have hwp0 : WellParented initialArena := by
    intro i n p hg hp
    have hi : i < 3 := get?_length hg
    interval_cases i
    · have hg' : (some (⟨0, none, some 1, some 2, false⟩ : HuffmanNode) :
          Option HuffmanNode) = some n := hg
      cases hg'
      cases hp
    · have hg' : (some (⟨0, some 0, none, none, false⟩ : HuffmanNode) :
          Option HuffmanNode) = some n := hg
      cases hg'
      cases hp
      exact ⟨_, 1, 2, rfl, rfl, rfl, by omega, Or.inl rfl⟩
    · have hg' : (some (⟨0, some 0, none, none, false⟩ : HuffmanNode) :
          Option HuffmanNode) = some n := hg
      cases hg'
      cases hp
      exact ⟨_, 1, 2, rfl, rfl, rfl, by omega, Or.inr rfl⟩
  have hopen0 : ∀ k, k < 2 → leftAt initialArena (1 + k) = some none ∧
      rightAt initialArena (1 + k) = some none ∧
      validAt initialArena (1 + k) = some false := by
    intro k hk
    have : k = 0 ∨ k = 1 := by omega
    rcases this with h | h <;> subst h
    · exact ⟨rfl, rfl, rfl⟩
    · exact ⟨rfl, rfl, rfl⟩
  have hpb0 : ∀ i n p, initialArena.get? i = some n → n.parent = some p → p < 1 := by
    intro i n p hg hp
    have hi : i < 3 := get?_length hg
    interval_cases i
    · have hg' : (some (⟨0, none, some 1, some 2, false⟩ : HuffmanNode) :
          Option HuffmanNode) = some n := hg
      cases hg'
      cases hp
    · have hg' : (some (⟨0, some 0, none, none, false⟩ : HuffmanNode) :
          Option HuffmanNode) = some n := hg
      cases hg'
      cases hp
      omega
    · have hg' : (some (⟨0, some 0, none, none, false⟩ : HuffmanNode) :
          Option HuffmanNode) = some n := hg
      cases hg'
      cases hp
      omega
  obtain ⟨nodesL, hrun, hlenL, hchainL, hrootL, hdecL, hwpL, hopenL, hpbL⟩ :=
    constructLoop_spec t initialArena [⟨0, 1, 0, []⟩] 1 2 hchain0 hroot0 hdec0 hwp0
      hlen0 hopen0 hpb0 hfit h256
  have hnew : new t = (match constructLoop t initialArena (some 1) with
    | none => none
    | some (nodes2, _) => some ⟨nodes2⟩) := rfl
  refine ⟨⟨nodesL⟩, ?_, hlenL, ?_, hrootL, hdecL, hwpL, hopenL⟩
  · rw [hnew, hrun]
  · show ChainFrom nodesL 0 1 (⟨0, 1, 0, []⟩ :: mkRecs 1 2 t) (growBase 1 2 t)
      (growSize 2 t)
    rw [show (⟨0, 1, 0, []⟩ : LevelRec) :: mkRecs 1 2 t =
      [⟨0, 1, 0, []⟩] ++ mkRecs 1 2 t from rfl]
    exact hchainL

/-- A table whose Kraft weight stays strictly below the capacity of the
current frontier strictly fits it at every level. -/
theorem fits_of_kraft : ∀ (slots : List (List Nat)) (fm : Nat),
    2 * kraftSum slots < fm * 2 ^ slots.length → FitsFrontier fm slots := by
  intro slots
  induction slots with
  | nil => intro fm _; trivial
  | cons s rest ih =>
    intro fm h
    have hpow : 0 < 2 ^ rest.length := Nat.pos_pow_of_pos _ (by omega)
    simp only [kraftSum, List.length_cons] at h
    rw [Nat.pow_succ] at h
    have hs : s.length < fm := by
      by_contra hc
      push_neg at hc
      have h1 : fm * 2 ^ rest.length ≤ s.length * 2 ^ rest.length :=
        Nat.mul_le_mul_right _ hc
      nlinarith
    refine ⟨hs, ih _ ?_⟩
    have h2 : 2 * (s.length * 2 ^ rest.length) + 2 * kraftSum rest <
        fm * (2 ^ rest.length * 2) := by omega
    have h3 : fm * (2 ^ rest.length * 2) = 2 * fm * 2 ^ rest.length := by ring
    have h4 : 2 * (s.length * 2 ^ rest.length) = 2 * s.length * 2 ^ rest.length := by
      ring
    have h5 : 2 * kraftSum rest <
        2 * fm * 2 ^ rest.length - 2 * s.length * 2 ^ rest.length := by omega
    have h6 : 2 * fm * 2 ^ rest.length - 2 * s.length * 2 ^ rest.length =
        (2 * (fm - s.length)) * 2 ^ rest.length := by
      have : 2 * (fm - s.length) = 2 * fm - 2 * s.length := by omega
      rw [this, Nat.sub_mul]
    omega

/-- A strictly fitting table keeps the canonical counters strictly inside
each level: nothing ever reaches code value `2 ^ w`. -/
theorem strictFill_of_fits : ∀ (slots : List (List Nat)) (w start fm : Nat),
    FitsFrontier fm slots → start + fm = 2 ^ w → StrictFill w start slots := by
  intro slots
  induction slots with
  | nil => intro w start fm _ _; trivial
  | cons s rest ih =>
    intro w start fm hfit hsum
    obtain ⟨hs, hfit2⟩ := hfit
    refine ⟨by omega, ih (w + 1) _ (2 * (fm - s.length)) hfit2 ?_⟩
    rw [Nat.pow_succ]
    omega

theorem natToBits_length : ∀ (w n : Nat), (natToBits w n).length = w
  | 0, _ => rfl
  | w + 1, n => by
    show (natToBits w (n / 2) ++ [n % 2 == 1]).length = w + 1
    rw [List.length_append, natToBits_length w (n / 2)]
    rfl

theorem natToBits_double (w v : Nat) :
    natToBits (w + 1) (2 * v) = natToBits w v ++ [false] := by
  show natToBits w (2 * v / 2) ++ [2 * v % 2 == 1] = _
  rw [show 2 * v / 2 = v from by omega, show 2 * v % 2 = 0 from by omega]
  rfl

theorem natToBits_double_one (w v : Nat) :
    natToBits (w + 1) (2 * v + 1) = natToBits w v ++ [true] := by
  show natToBits w ((2 * v + 1) / 2) ++ [(2 * v + 1) % 2 == 1] = _
  rw [show (2 * v + 1) / 2 = v from by omega, show (2 * v + 1) % 2 = 1 from by omega]
  rfl

theorem natToBits_inj : ∀ (w v v' : Nat), v < 2 ^ w → v' < 2 ^ w →
    natToBits w v = natToBits w v' → v = v' := by
  intro w
  induction w with
  | zero =>
    intro v v' h h' _
    simp only [Nat.pow_zero] at h h'
    omega
  | succ w ih =>
    intro v v' h h' heq
    have h1 : natToBits w (v / 2) ++ [v % 2 == 1] =
        natToBits w (v' / 2) ++ [v' % 2 == 1] := heq
    obtain ⟨hpre, hsuf⟩ := List.append_inj h1
      (by rw [natToBits_length, natToBits_length])
    have hrange : v / 2 < 2 ^ w ∧ v' / 2 < 2 ^ w := by
      rw [Nat.pow_succ] at h h'
      omega
    have hv2 : v / 2 = v' / 2 := ih _ _ hrange.1 hrange.2 hpre
    have hb : (v % 2 == 1) = (v' % 2 == 1) := by simpa using hsuf
    have hm : v % 2 = v' % 2 := by
      rcases Nat.mod_two_eq_zero_or_one v with h0 | h0 <;>
        rcases Nat.mod_two_eq_zero_or_one v' with h1' | h1' <;>
          rw [h0, h1'] at hb <;> first | omega | simp at hb
    omega

theorem take_natToBits : ∀ (e w v : Nat), w ≤ e →
    (natToBits e v).take w = natToBits w (v / 2 ^ (e - w)) := by
  intro e
  induction e with
  | zero =>
    intro w v hw
    have hw0 : w = 0 := by omega
    subst hw0
    rfl
  | succ e ih =>
    intro w v hw
    by_cases hwe : w = e + 1
    · subst hwe
      rw [Nat.sub_self, List.take_of_length_le (by rw [natToBits_length]),
        Nat.pow_zero, Nat.div_one]
    · have hwle : w ≤ e := by omega
      show (natToBits e (v / 2) ++ [v % 2 == 1]).take w = _
      rw [List.take_append_of_le_length (by rw [natToBits_length]; omega)]
      rw [ih w (v / 2) hwle]
      congr 1
      rw [Nat.div_div_eq_div_mul]
      congr 1
      rw [show e + 1 - w = (e - w) + 1 from by omega, Nat.pow_succ]
      ring

theorem flatMap_single {α β : Type} (f : α → β) :
    ∀ l : List α, l.flatMap (fun x => [f x]) = l.map f
  | [] => rfl
  | x :: l => by
    rw [List.flatMap_cons, List.map_cons, flatMap_single f l]
    rfl

theorem flatMap_range_pair {α : Type} (G : Nat → List α) :
    ∀ n : Nat, (List.range (2 * n)).flatMap G =
      (List.range n).flatMap (fun i => G (2 * i) ++ G (2 * i + 1))
  | 0 => rfl
  | n + 1 => by
    rw [show 2 * (n + 1) = 2 * n + 1 + 1 from by ring]
    rw [List.range_succ, List.flatMap_append, List.range_succ, List.flatMap_append,
      List.range_succ, List.flatMap_append, flatMap_range_pair G n]
    simp only [List.flatMap_singleton]
    rw [List.append_assoc]

theorem range_map_getD (l : List Nat) :
    (List.range l.length).map (fun j => l.getD j 0) = l := by
  apply List.ext_getElem
  · simp
  · intro i h1 h2
    simp only [List.getElem_map, List.getElem_range]
    rw [List.getD_eq_getElem l 0 h2]

theorem canonicalLevel_eq_map (w start : Nat) (syms : List Nat) :
    canonicalLevel w start syms =
      (List.range syms.length).map
        (fun j => (natToBits w (start + j), syms.getD j 0)) := by
  unfold canonicalLevel
  apply List.ext_getElem
  · simp
  · intro i h1 h2
    have hi : i < syms.length := by simpa using h2
    simp only [List.getElem_map, List.getElem_zip, List.getElem_range]
    rw [List.getD_eq_getElem syms 0 hi]

theorem chainFrom_length_le {nodes : List HuffmanNode} :
    ∀ (recs : List LevelRec) (b m fb fm : Nat),
      ChainFrom nodes b m recs fb fm → b + recs.length ≤ fb := by
  intro recs
  induction recs with
  | nil =>
    intro b m fb fm h
    obtain ⟨h1, h2⟩ := h
    simp only [List.length_nil]
    omega
  | cons r rs ih =>
    intro b m fb fm h
    obtain ⟨hb, hm, hrc, hrest⟩ := h
    have h1 := ih _ _ _ _ hrest
    have h2 := hrc.2.1
    simp only [List.length_cons]
    omega

theorem mkRecs_map_syms : ∀ (slots : List (List Nat)) (fb fm : Nat),
    (mkRecs fb fm slots).map (fun r => r.syms) = slots
  | [], _, _ => rfl
  | s :: rest, fb, fm => by
    simp only [mkRecs, List.map_cons]
    rw [mkRecs_map_syms rest]

theorem do_print_codes_node {nodes : List HuffmanNode} {idx : Nat} {n : HuffmanNode}
    (hg : nodes.get? idx = some n) (hlt : idx < nodes.length) (fuel : Nat)
    (code : List Bool) :
    do_print_codes nodes (fuel + 1) idx code =
      (match n.left_child with
       | none => []
       | some lc => do_print_codes nodes fuel lc (code ++ [false])) ++
      (if n.valid_code then [(code, n.value)] else []) ++
      (match n.right_child with
       | none => []
       | some rc => do_print_codes nodes fuel rc (code ++ [true])) := by
  simp only [do_print_codes]
  rw [if_neg (by omega), hg]

/-- In-order traversal of the arena below a level block of a completed
chain: the concatenated listings of the block's nodes, fed the canonical
codes of the block, produce exactly the canonical code list of the recorded
symbols. -/
theorem traverse_chain : ∀ (recs : List LevelRec) (nodes : List HuffmanNode)
    (b m fb fm w s fuel : Nat),
    ChainFrom nodes b m recs fb fm →
    (∀ k, k < fm → leftAt nodes (fb + k) = some none ∧
      rightAt nodes (fb + k) = some none ∧ validAt nodes (fb + k) = some false) →
    nodes.length = fb + fm →
    recs.length + 1 ≤ fuel →
    (List.range m).flatMap
        (fun k => do_print_codes nodes fuel (b + k) (natToBits w (s + k))) =
      canonicalCodes (recs.map (fun r => r.syms)) w s := by
  intro recs
  induction recs with
  | nil =>
    intro nodes b m fb fm w s fuel hchain hopen hlen hfuel
    obtain ⟨hb, hm⟩ := hchain
    subst hb
    subst hm
    simp only [List.map_nil]
    rw [show canonicalCodes ([] : List (List Nat)) w s = [] from rfl]
    rw [List.flatMap_eq_nil_iff]
    intro k hk
    have hkm : k < fm := List.mem_range.mp hk
    match fuel, hfuel with
    | fuel + 1, _ =>
    obtain ⟨hl, hr, hv⟩ := hopen k hkm
    obtain ⟨n, hg, hnl, hnr⟩ := fields_some hl hr
    obtain ⟨n2, hg2, hn2⟩ := projAt_some hv
    rw [hg] at hg2
    cases hg2
    rw [do_print_codes_node hg (by omega)]
    rw [hnl, hnr, hn2]
    rfl
  | cons r rs ih =>
    intro nodes b m fb fm w s fuel hchain hopen hlen hfuel
    obtain ⟨hb, hm, hrc, hrest⟩ := hchain
    obtain ⟨hsym, hcnt, hleaf, hint, hpar⟩ := hrc
    subst hb
    subst hm
    match fuel, hfuel with
    | fuel + 1, hfuel =>
    have hblt : ∀ k, k < r.size → r.base + k < nodes.length := by
      intro k hk
      have := chainFrom_le rs _ _ _ _ hrest
      omega
    have hleafcall : ∀ k, k < r.cnt →
        do_print_codes nodes (fuel + 1) (r.base + k) (natToBits w (s + k)) =
          [(natToBits w (s + k), r.syms.getD k 0)] := by
      intro k hk
      obtain ⟨hval, hvalid, hl, hr'⟩ := hleaf k hk
      obtain ⟨n, hg, hnl, hnr⟩ := fields_some hl hr'
      obtain ⟨n2, hg2, hn2⟩ := projAt_some hvalid
      rw [hg] at hg2
      cases hg2
      obtain ⟨n3, hg3, hn3⟩ := projAt_some hval
      rw [hg] at hg3
      cases hg3
      rw [do_print_codes_node hg (hblt k (by omega))]
      rw [hnl, hnr, hn2, hn3]
      rfl
    have hintcall : ∀ i, i < r.size - r.cnt →
        do_print_codes nodes (fuel + 1) (r.base + (r.cnt + i))
            (natToBits w (s + (r.cnt + i))) =
          do_print_codes nodes fuel (r.base + r.size + 2 * i)
              (natToBits (w + 1) (2 * (s + r.cnt) + 2 * i)) ++
            do_print_codes nodes fuel (r.base + r.size + (2 * i + 1))
              (natToBits (w + 1) (2 * (s + r.cnt) + (2 * i + 1))) := by
      intro i hi
      obtain ⟨hl, hr', hv⟩ := hint (r.cnt + i) (by omega) (by omega)
      rw [show r.cnt + i - r.cnt = i from by omega] at hl hr'
      obtain ⟨n, hg, hnl, hnr⟩ := fields_some hl hr'
      obtain ⟨n2, hg2, hn2⟩ := projAt_some hv
      rw [hg] at hg2
      cases hg2
      rw [do_print_codes_node hg (hblt _ (by omega))]
      rw [hnl, hnr, hn2]
      rw [show r.base + r.size + (2 * i + 1) = r.base + r.size + 2 * i + 1 from by omega]
      rw [show (2 : Nat) * (s + r.cnt) + (2 * i + 1) = 2 * (s + (r.cnt + i)) + 1
        from by ring]
      rw [show (2 : Nat) * (s + r.cnt) + 2 * i = 2 * (s + (r.cnt + i)) from by ring]
      rw [natToBits_double, natToBits_double_one]
      simp
    have hsplit : List.range r.size =
        List.range r.cnt ++ (List.range (r.size - r.cnt)).map (fun i => r.cnt + i) := by
      rw [← List.range_add]
      congr 1
      omega
    rw [hsplit, List.flatMap_append, List.flatMap_map]
    have hleft : (List.range r.cnt).flatMap
        (fun k => do_print_codes nodes (fuel + 1) (r.base + k) (natToBits w (s + k))) =
        (List.range r.cnt).map (fun k => (natToBits w (s + k), r.syms.getD k 0)) := by
      rw [List.flatMap_congr (fun k hk => hleafcall k (List.mem_range.mp hk))]
      exact flatMap_single _ _
    rw [hleft]
    rw [List.flatMap_congr (fun i hi => hintcall i (List.mem_range.mp hi))]
    rw [← flatMap_range_pair
      (fun k => do_print_codes nodes fuel (r.base + r.size + k)
        (natToBits (w + 1) (2 * (s + r.cnt) + k)))]
    rw [ih nodes (r.base + r.size) (2 * (r.size - r.cnt)) fb fm (w + 1)
      (2 * (s + r.cnt)) fuel hrest hopen hlen
      (by simp only [List.length_cons] at hfuel; omega)]
    simp only [List.map_cons, canonicalCodes]
    rw [canonicalLevel_eq_map, ← hsym]

/-- The builder on a strictly fitting table succeeds and its code listing is
exactly the canonical code assignment of the table. -/
theorem print_codes_canonical {t : HuffmanTable}
    (hfit : FitsFrontier 2 t) (h256 : ∀ s, s ∈ t → s.length < 256) :
    ∃ tree, new t = some tree ∧ print_codes tree = canonicalCodes t 1 0 := by
  obtain ⟨tree, hnew, hlen, hchain, hroot, hdec, hwp, hopen⟩ := new_spec hfit h256
  refine ⟨tree, hnew, ?_⟩
  have hrecs : (mkRecs 0 1 ([] :: t)).length + 1 ≤ tree.nodes.length + 1 := by
    have h1 := chainFrom_length_le (mkRecs 0 1 ([] :: t)) 0 1 _ _ hchain
    omega
  have htrav := traverse_chain (mkRecs 0 1 ([] :: t)) tree.nodes 0 1
    (growBase 1 2 t) (growSize 2 t) 0 0 (tree.nodes.length + 1) hchain hopen hlen hrecs
  rw [mkRecs_map_syms] at htrav
  rw [show List.range 1 = [0] from rfl] at htrav
  simp only [List.flatMap_cons, List.flatMap_nil, List.append_nil, Nat.add_zero] at htrav
  rw [show natToBits 0 0 = ([] : List Bool) from rfl] at htrav
  rw [show canonicalCodes ([] :: t) 0 0 = canonicalCodes t 1 0 from rfl] at htrav
  unfold print_codes
  exact htrav

theorem canonicalCodes_len_mem : ∀ (t : List (List Nat)) (w s : Nat)
    (p : List Bool × Nat), p ∈ canonicalCodes t w s → w ≤ p.1.length := by
  intro t
  induction t with
  | nil =>
    intro w s p hp
    cases hp
  | cons s0 rest ih =>
    intro w s p hp
    simp only [canonicalCodes, List.mem_append] at hp
    rcases hp with hp | hp
    · rw [canonicalLevel_eq_map] at hp
      obtain ⟨j, hj, rfl⟩ := List.mem_map.mp hp
      simp [natToBits_length]
    · have := ih (w + 1) _ p hp
      omega

/-- Filtering the canonical code list by code length `l` picks exactly the
level-`l` slot, in order. -/
theorem canonicalCodes_filter : ∀ (t : List (List Nat)) (w s l : Nat), w ≤ l →
    l < w + t.length →
    ((canonicalCodes t w s).filter (fun p => p.1.length == l)).map Prod.snd =
      t.getD (l - w) [] := by
  intro t
  induction t with
  | nil =>
    intro w s l h1 h2
    simp only [List.length_nil, Nat.add_zero] at h2
    omega
  | cons s0 rest ih =>
    intro w s l h1 h2
    simp only [canonicalCodes, List.filter_append, List.map_append]
    by_cases hlw : l = w
    · subst hlw
      have hA : (canonicalLevel l s s0).filter (fun p => p.1.length == l) =
          canonicalLevel l s s0 := by
        rw [List.filter_eq_self]
        intro p hp
        rw [canonicalLevel_eq_map] at hp
        obtain ⟨j, hj, rfl⟩ := List.mem_map.mp hp
        simp [natToBits_length]
      have hB : (canonicalCodes rest (l + 1) (2 * (s + s0.length))).filter
          (fun p => p.1.length == l) = [] := by
        rw [List.filter_eq_nil_iff]
        intro p hp
        have hge := canonicalCodes_len_mem rest (l + 1) _ p hp
        simp only [beq_iff_eq]
        omega
      rw [hA, hB]
      simp only [List.map_nil, List.append_nil]
      rw [Nat.sub_self, canonicalLevel_eq_map, List.map_map]
      rw [show Prod.snd ∘
          (fun j => ((natToBits l (s + j), s0.getD j 0) : List Bool × Nat)) =
        fun j => s0.getD j 0 from rfl]
      rw [range_map_getD]
      rfl
    · have hA : (canonicalLevel w s s0).filter (fun p => p.1.length == l) = [] := by
        rw [List.filter_eq_nil_iff]
        intro p hp
        rw [canonicalLevel_eq_map] at hp
        obtain ⟨j, hj, rfl⟩ := List.mem_map.mp hp
        simp only [natToBits_length, beq_iff_eq]
        omega
      rw [hA]
      simp only [List.map_nil, List.nil_append]
      rw [ih (w + 1) _ l (by omega)
        (by simp only [List.length_cons] at h2; omega)]
      rw [show l - w = (l - (w + 1)) + 1 from by omega]
      rfl

/-- Every canonical code is the `e`-bit string of a value bounded below by
the scaled start counter. -/
theorem canonicalCodes_mem_char : ∀ (t : List (List Nat)) (w s : Nat)
    (p : List Bool × Nat), StrictFill w s t → p ∈ canonicalCodes t w s →
    ∃ e v, p.1 = natToBits e v ∧ w ≤ e ∧ 2 ^ (e - w) * s ≤ v ∧ v < 2 ^ e := by
  intro t
  induction t with
  | nil =>
    intro w s p _ hp
    cases hp
  | cons s0 rest ih =>
    intro w s p hsf hp
    obtain ⟨hcap, hsf2⟩ := hsf
    simp only [canonicalCodes, List.mem_append] at hp
    rcases hp with hp | hp
    · rw [canonicalLevel_eq_map] at hp
      obtain ⟨j, hj, rfl⟩ := List.mem_map.mp hp
      have hjlen : j < s0.length := List.mem_range.mp hj
      refine ⟨w, s + j, rfl, le_rfl, ?_, by omega⟩
      rw [Nat.sub_self, Nat.pow_zero, Nat.one_mul]
      omega
    · obtain ⟨e, v, hpe, hwe, hlow, hhigh⟩ := ih (w + 1) _ p hsf2 hp
      refine ⟨e, v, hpe, by omega, ?_, hhigh⟩
      have h1 : 2 ^ (e - w) * s ≤ 2 ^ (e - (w + 1)) * (2 * (s + s0.length)) := by
        rw [show e - w = (e - (w + 1)) + 1 from by omega, Nat.pow_succ]
        calc 2 ^ (e - (w + 1)) * 2 * s = 2 ^ (e - (w + 1)) * (2 * s) := by ring
        _ ≤ 2 ^ (e - (w + 1)) * (2 * (s + s0.length)) :=
          Nat.mul_le_mul_left _ (by omega)
      omega

theorem long_no_pre {c1 c2 : List Bool} (h : c2.length < c1.length) :
    ¬ isCodePre c1 c2 := by
  rintro ⟨suf, hsuf⟩
  have hlen := congrArg List.length hsuf
  simp only [List.length_append] at hlen
  omega

theorem natToBits_no_pre {w va vb : Nat} (hva : va < 2 ^ w) (hvb : vb < 2 ^ w)
    (hne : va ≠ vb) : ¬ isCodePre (natToBits w va) (natToBits w vb) := by
  rintro ⟨suf, hsuf⟩
  have hlen := congrArg List.length hsuf
  simp only [List.length_append, natToBits_length] at hlen
  have hsufnil : suf = [] := List.length_eq_zero.mp (by omega)
  subst hsufnil
  rw [List.append_nil] at hsuf
  exact hne (natToBits_inj w va vb hva hvb hsuf)

theorem short_no_pre_of_lt {w e va v : Nat} (hwe : w ≤ e) (hva : va < 2 ^ w)
    (hv : v < 2 ^ e) (hgt : va < v / 2 ^ (e - w)) :
    ¬ isCodePre (natToBits w va) (natToBits e v) := by
  rintro ⟨suf, hsuf⟩
  have htake := congrArg (fun l => List.take w l) hsuf
  simp only at htake
  rw [List.take_append_of_le_length (by rw [natToBits_length])] at htake
  rw [List.take_of_length_le (by rw [natToBits_length])] at htake
  rw [take_natToBits e w v hwe] at htake
  have hdiv : v / 2 ^ (e - w) < 2 ^ w := by
    rw [Nat.div_lt_iff_lt_mul (Nat.pos_pow_of_pos _ (by omega))]
    calc v < 2 ^ e := hv
    _ = 2 ^ w * 2 ^ (e - w) := by rw [← Nat.pow_add]; congr 1; omega
  have := natToBits_inj w va _ hva hdiv htake
  omega

/-- Canonical codes of a strictly fitting table are mutually prefix-free, in
traversal order. -/
theorem canonicalCodes_pairwise : ∀ (t : List (List Nat)) (w s : Nat),
    StrictFill w s t →
    (canonicalCodes t w s).Pairwise
      (fun a b => ¬ isCodePre a.1 b.1 ∧ ¬ isCodePre b.1 a.1) := by
  intro t
  induction t with
  | nil =>
    intro w s _
    exact List.Pairwise.nil
  | cons s0 rest ih =>
    intro w s hsf
    obtain ⟨hcap, hsf2⟩ := hsf
    simp only [canonicalCodes]
    rw [List.pairwise_append]
    refine ⟨?_, ih (w + 1) _ hsf2, ?_⟩
    · rw [canonicalLevel_eq_map, List.pairwise_map]
      refine (List.pairwise_lt_range s0.length).imp_of_mem ?_
      intro a b ha hb hab
      have ha' := List.mem_range.mp ha
      have hb' := List.mem_range.mp hb
      constructor
      · exact natToBits_no_pre (by omega) (by omega) (by omega)
      · exact natToBits_no_pre (by omega) (by omega) (by omega)
    · intro a ha b hb
      rw [canonicalLevel_eq_map] at ha
      obtain ⟨j, hj, rfl⟩ := List.mem_map.mp ha
      have hjlen : j < s0.length := List.mem_range.mp hj
      obtain ⟨e, v, hpe, hwe, hlow, hhigh⟩ :=
        canonicalCodes_mem_char rest (w + 1) _ b hsf2 hb
      have h1 : 2 ^ (e - w) * (s + s0.length) ≤ v := by
        rw [show e - w = (e - (w + 1)) + 1 from by omega, Nat.pow_succ]
        calc 2 ^ (e - (w + 1)) * 2 * (s + s0.length) =
            2 ^ (e - (w + 1)) * (2 * (s + s0.length)) := by ring
        _ ≤ v := hlow
      have h2 : s + s0.length ≤ v / 2 ^ (e - w) := by
        rw [Nat.le_div_iff_mul_le (Nat.pos_pow_of_pos _ (by omega))]
        calc (s + s0.length) * 2 ^ (e - w) = 2 ^ (e - w) * (s + s0.length) := by ring
        _ ≤ v := h1
      constructor
      · rw [hpe]
        exact short_no_pre_of_lt (by omega) (by omega) hhigh (by omega)
      · rw [hpe]
        apply long_no_pre
        rw [natToBits_length, natToBits_length]
        omega

end HuffmanTree

/-- Claim C1 counterexample: the table with two symbols at code length 1
satisfies the Kraft inequality for 16 levels with equality, yet the builder
panics on the level-1 `leftmost_node.unwrap()` and returns no tree at all, so
no tree with the claimed leaf layout is produced. -/
theorem huffman_kraft_equality_no_tree_cex :
    kraftSum tableTwoLenOne = 2 ^ 16 ∧ tableTwoLenOne.length = 16 ∧
      (∀ s, s ∈ tableTwoLenOne → s.length < 256) ∧
      HuffmanTree.new tableTwoLenOne = none := by
  refine ⟨by decide, by decide, by decide, by decide⟩

/-- Claim C1 (amended): for every 16-slot raw table whose slot sizes stay
below 256 and whose Kraft weight is strictly below `2 ^ 16` (strict Kraft
inequality; equality panics, see the counterexample), `HuffmanTree::new`
returns a tree whose code listing carries, for each length `l` in 1..16,
exactly the `l`-slot symbols in slot order, and the listed codes are mutually
prefix-free. -/
theorem huffman_builder_canonical_codes (t : HuffmanTable)
    (h16 : t.length = 16) (h256 : ∀ s, s ∈ t → s.length < 256)
    (hkraft : kraftSum t < 2 ^ 16) :
    ∃ tree, HuffmanTree.new t = some tree ∧
      (∀ l, 1 ≤ l → l ≤ 16 →
        ((HuffmanTree.print_codes tree).filter
            (fun p => p.1.length == l)).map Prod.snd = t.getD (l - 1) []) ∧
      (HuffmanTree.print_codes tree).Pairwise
        (fun a b => ¬ isCodePre a.1 b.1 ∧ ¬ isCodePre b.1 a.1) := by
  have hpow : (2 : Nat) ^ 16 = 65536 := by norm_num
  have hfit : HuffmanTree.FitsFrontier 2 t := by
    apply HuffmanTree.fits_of_kraft t 2
    rw [h16]
    have hpow17 : (2 : Nat) * 2 ^ 16 = 131072 := by norm_num
    omega
  obtain ⟨tree, hnew, hpc⟩ := HuffmanTree.print_codes_canonical hfit h256
  have hsf : HuffmanTree.StrictFill 1 0 t :=
    HuffmanTree.strictFill_of_fits t 1 0 2 hfit (by norm_num)
  refine ⟨tree, hnew, ?_, ?_⟩
  · intro l hl1 hl2
    rw [hpc]
    rw [HuffmanTree.canonicalCodes_filter t 1 0 l hl1 (by rw [h16]; omega)]
  · rw [hpc]
    exact HuffmanTree.canonicalCodes_pairwise t 1 0 hsf

/-- Claim C1 witness: the amended theorem applied to the strict-Kraft table
with one symbol at every length. -/
theorem huffman_builder_canonical_codes_witness :
    tableOnePerLevel.length = 16 ∧ (∀ s, s ∈ tableOnePerLevel → s.length < 256) ∧
      kraftSum tableOnePerLevel < 2 ^ 16 ∧
      (∃ tree, HuffmanTree.new tableOnePerLevel = some tree ∧
        (∀ l, 1 ≤ l → l ≤ 16 →
          ((HuffmanTree.print_codes tree).filter
              (fun p => p.1.length == l)).map Prod.snd =
            tableOnePerLevel.getD (l - 1) []) ∧
        (HuffmanTree.print_codes tree).Pairwise
          (fun a b => ¬ isCodePre a.1 b.1 ∧ ¬ isCodePre b.1 a.1)) :=
  ⟨by decide, by decide, by decide,
    huffman_builder_canonical_codes tableOnePerLevel (by decide) (by decide) (by decide)⟩

/-- Claim C3 counterexample: the table with one symbol at length 1 and two at
length 2 does not overflow 16 levels (its Kraft weight is exactly `2 ^ 16`),
yet the builder fails: the two length-2 symbols exactly fill level 2 and the
unconditional `leftmost_node.unwrap()` of line 67 panics, so `new` is not
total on Kraft-equality tables. -/
theorem huffman_total_kraft_equality_cex :
    kraftSum tableSkewEq = 2 ^ 16 ∧ tableSkewEq.length = 16 ∧
      (∀ s, s ∈ tableSkewEq → s.length < 256) ∧
      HuffmanTree.new tableSkewEq = none := by
  refine ⟨by decide, by decide, by decide, by decide⟩

/-- Claim C3 (amended): `HuffmanTree::new` is total on every 16-slot table
whose slot sizes stay below 256 and whose Kraft weight is strictly below
`2 ^ 16`; tables that reach Kraft equality make some level fill exactly and
panic at line 67's unwrap (see the counterexample). -/
theorem huffman_builder_total_strict (t : HuffmanTable)
    (h16 : t.length = 16) (h256 : ∀ s, s ∈ t → s.length < 256)
    (hkraft : kraftSum t < 2 ^ 16) :
    ∃ tree, HuffmanTree.new t = some tree := by
  have hfit : HuffmanTree.FitsFrontier 2 t := by
    apply HuffmanTree.fits_of_kraft t 2
    rw [h16]
    have hpow : (2 : Nat) ^ 16 = 65536 := by norm_num
    have hpow17 : (2 : Nat) * 2 ^ 16 = 131072 := by norm_num
    omega
  obtain ⟨tree, hnew, _⟩ := HuffmanTree.print_codes_canonical hfit h256
  exact ⟨tree, hnew⟩

/-- Claim C3 witness: the amended totality theorem applied to the
strict-Kraft table with one symbol at every length. -/
theorem huffman_builder_total_strict_witness :
    tableOnePerLevel.length = 16 ∧ (∀ s, s ∈ tableOnePerLevel → s.length < 256) ∧
      kraftSum tableOnePerLevel < 2 ^ 16 ∧
      (∃ tree, HuffmanTree.new tableOnePerLevel = some tree) :=
  ⟨by decide, by decide, by decide,
    huffman_builder_total_strict tableOnePerLevel (by decide) (by decide) (by decide)⟩

end Jpeg
